import Mathlib

/-
Verification of the AI_GAME dungeon crawler core: a shallow embedding of the
grid maze generator, feature placer, breadth-first pathfinder, and the
interaction registry/resolver, with theorems checking the natural-language
specification against the code.

Conventions of the embedding:
* Go `int` is modelled as `Int` (no code path here relies on 64-bit wraparound).
* Go integer division (which truncates toward zero) is modelled as `Int.tdiv`.
* Wall-clock time (`time.Now()`, float64 seconds) is modelled as `Rat` and is
  passed explicitly to the functions that read the clock.
* Go's `rand.Intn n` is modelled by an explicit stream of choice values
  (a function `Nat → Nat` with a cursor); the drawn value is `stream cursor % n`,
  which lies in `[0, n)` exactly as `rand.Intn` guarantees for `n > 0`.
* Loops without a structural termination measure (`for {}` retry loops and the
  generator/BFS work-list loops) take an explicit fuel argument; the fuel passed
  by the top-level entry points provably dominates a decreasing measure of the
  loop state, so the embedded functions compute exactly what the Go loops do.
-/

namespace AIGame

/-- Cell categories (`CellType` in the source; `iota`, so the Go zero value is `Empty`). -/
inductive CellType where
  | Empty
  | Wall
  | Monster
  | Treasure
  | Entrance
  | Exit
deriving DecidableEq, Repr

/-- Treasure variants (`TreasureType`, a Go string; `noneT` stands for the zero value `""`). -/
inductive TreasureType where
  | noneT
  | gold
  | gems
  | artifact
  | potion
deriving DecidableEq, Repr

/-- String form of a treasure type, as Go's `fmt` prints the underlying string. -/
def TreasureType.text : TreasureType → String
  | .noneT => ""
  | .gold => "gold"
  | .gems => "gems"
  | .artifact => "artifact"
  | .potion => "potion"

/-- Monster tiers (`MonsterTier` in the source). -/
inductive MonsterTier where
  | TierEasy
  | TierMedium
  | TierHard
  | TierBoss
deriving DecidableEq, Repr

/-- One grid cell (`Cell` in the source; the Go field `Type` is spelled `typ`
here because `Type` is reserved in Lean). -/
structure Cell where
  typ : CellType
  InteractionLevel : Int
  TreasureType : TreasureType
  MonsterTier : MonsterTier
deriving DecidableEq, Repr

/-- The Go zero value of `Cell`. -/
def zeroCell : Cell :=
  { typ := .Empty, InteractionLevel := 0, TreasureType := .noneT, MonsterTier := .TierEasy }

/-- An all-wall cell as written by the dungeon initialisation. -/
def wallCell : Cell :=
  { typ := .Wall, InteractionLevel := 0, TreasureType := .noneT, MonsterTier := .TierEasy }

/-- Integer grid coordinate (`Point` in the source). -/
structure Point where
  x : Int
  y : Int
deriving DecidableEq, Repr

/-- The player/actor (`Player` in the source). -/
structure Player where
  X : Int
  Y : Int
  Health : Int
  MaxHealth : Int
  Score : Int
  FOVEnabled : Bool
  FOVRadius : Int
  moveCooldown : Int
  Path : List Point
  Defense : Int
  Luck : Int
  Level : Int
  Experience : Int
deriving DecidableEq, Repr

/-- `NewPlayer` from the source (position fields from the entrance argument). -/
def NewPlayer (startPos : Point) : Player :=
  { X := startPos.x, Y := startPos.y, Health := 100, MaxHealth := 100, Score := 0,
    FOVEnabled := true, FOVRadius := 6, moveCooldown := 0, Path := [],
    Defense := 10, Luck := 5, Level := 1, Experience := 0 }

/-- A message with a timestamp (`TimedMessage` in the source; times in seconds as `Rat`). -/
structure TimedMessage where
  Text : String
  CreatedAt : Rat
  TotalLifetime : Rat
  RemainingTime : Rat
deriving DecidableEq, Repr

/-- Result of one interaction (`InteractionResult` in the source). -/
structure InteractionResult where
  Message : String
  HealthChange : Int
  ScoreChange : Int
  RemoveEntity : Bool
  EntityRemoved : CellType
deriving DecidableEq, Repr

/-- The three implementations of the `Interactable` interface, as a closed union. -/
inductive Interactable where
  | monster (Level : Int)
  | treasure (Value : Int) (typ : TreasureType)
  | exitDoor (NextLevel : Int)
deriving DecidableEq, Repr

/-- The `Interact` methods of `MonsterInteraction`, `TreasureInteraction` and
`ExitInteraction`, transcribed from `intersection.go` (Go `/` is `Int.tdiv`). -/
def Interactable.Interact : Interactable → Player → InteractionResult
  | .monster lvl, player =>
    let damage := Int.tdiv ((5 + lvl * 2) * (100 - player.Defense)) 100
    let score := 10 + lvl * 5
    { Message := "Defeated a level " ++ toString lvl ++ " monster! Took " ++
        toString damage ++ " damage.",
      HealthChange := -damage, ScoreChange := score,
      RemoveEntity := true, EntityRemoved := .Monster }
  | .treasure value ttype, player =>
    let score := Int.tdiv (value * (100 + player.Luck)) 100
    let health : Int := if ttype = .potion then 10 else 0
    { Message := "Found " ++ ttype.text ++ " worth " ++ toString score ++ " points!",
      HealthChange := health, ScoreChange := score,
      RemoveEntity := true, EntityRemoved := .Treasure }
  | .exitDoor nextLevel, _ =>
    { Message := "Descending to dungeon level " ++ toString nextLevel ++ "!",
      HealthChange := 0, ScoreChange := 20,
      RemoveEntity := false, EntityRemoved := .Empty }

/-- The interaction registry and message log (`InteractionHandler` in the source;
the Go map is modelled as a function into `Option`). -/
structure InteractionHandler where
  Interactions : CellType → Option Interactable
  Messages : List TimedMessage
  MessageLife : Rat

/-- `NewInteractionHandler` from the source: empty registry, empty log, lifetime 1.5 s. -/
def NewInteractionHandler : InteractionHandler :=
  { Interactions := fun _ => none, Messages := [], MessageLife := 3 / 2 }

/-- `Register` installs or overwrites the behavior for a category. -/
def InteractionHandler.Register (h : InteractionHandler) (ct : CellType)
    (i : Interactable) : InteractionHandler :=
  { h with Interactions := fun ct' => if ct' = ct then some i else h.Interactions ct' }

/-- `AddMessage` from the source: append a fresh timed message stamped `now`,
then cap the log at its 5 most recent entries. -/
def InteractionHandler.AddMessage (h : InteractionHandler) (now : Rat)
    (msg : String) : InteractionHandler :=
  let timedMsg : TimedMessage :=
    { Text := msg, CreatedAt := now, TotalLifetime := h.MessageLife,
      RemainingTime := h.MessageLife }
  let msgs := h.Messages ++ [timedMsg]
  { h with Messages := if msgs.length > 5 then msgs.drop (msgs.length - 5) else msgs }

/-- `Handle` from the source: look up the behavior for the category; if registered,
run it, log its message, apply the stat deltas (health clamped above by
`MaxHealth`), and return the result; otherwise return the no-op result and
touch nothing. Returns the result together with the updated handler and player. -/
def InteractionHandler.Handle (h : InteractionHandler) (now : Rat) (ct : CellType)
    (player : Player) : InteractionResult × InteractionHandler × Player :=
  match h.Interactions ct with
  | some interaction =>
    let result := interaction.Interact player
    let h' := h.AddMessage now result.Message
    let p1 := { player with Health := player.Health + result.HealthChange,
                            Score := player.Score + result.ScoreChange }
    let p2 := if p1.Health > p1.MaxHealth then { p1 with Health := p1.MaxHealth } else p1
    (result, h', p2)
  | none =>
    ({ Message := "Nothing happens.", HealthChange := 0, ScoreChange := 0,
       RemoveEntity := false, EntityRemoved := .Empty }, h, player)

/-- `UpdateMessages` from the source: recompute each queued message's remaining
time as the handler's `MessageLife` minus the elapsed time since creation, and
keep only messages whose recomputed remainder is positive. -/
def InteractionHandler.UpdateMessages (h : InteractionHandler) (now : Rat) :
    InteractionHandler :=
  { h with Messages := h.Messages.filterMap fun msg =>
      let elapsed := now - msg.CreatedAt
      let remaining := h.MessageLife - elapsed
      if remaining > 0 then some { msg with RemainingTime := remaining } else none }

/-- `GetActiveMessages` from the source. -/
def InteractionHandler.GetActiveMessages (h : InteractionHandler) (now : Rat) :
    List TimedMessage :=
  (h.UpdateMessages now).Messages

/-- `GetMessages` from the source. -/
def InteractionHandler.GetMessages (h : InteractionHandler) (now : Rat) :
    List String :=
  ((h.UpdateMessages now).Messages).map (fun msg => msg.Text)

/-- The dungeon (`Dungeon` in the source; the `[2]int` entrance/exit indices are
modelled as `Point`). -/
structure Dungeon where
  Cells : List (List Cell)
  Width : Int
  Height : Int
  Entrance : Point
  Exit : Point
  Visited : List (List Bool)
  Level : Int
deriving Repr

/-- Oracle for `math/rand`: an arbitrary stream of draws plus a cursor.
`rand.Intn n` is modelled as `stream cursor % n`, which lies in `[0, n)` for
`n > 0`, exactly the contract of `rand.Intn` (for `n = 0` the Go call panics;
such calls are outside every claim's preconditions). -/
structure Rng where
  stream : Nat → Nat
  cursor : Nat

/-- Draw a value below `n` and advance the cursor. -/
def Rng.intn (r : Rng) (n : Nat) : Nat × Rng :=
  (r.stream r.cursor % n, { r with cursor := r.cursor + 1 })

/-- Read `d.Cells[p.y][p.x]`. The source only indexes in bounds (out-of-bounds
indexing would panic); the embedding returns the Go zero `Cell` (whose category
is `Empty`) outside the stored extent or at negative coordinates. -/
def Dungeon.getCell (d : Dungeon) (p : Point) : Cell :=
  if 0 ≤ p.x ∧ 0 ≤ p.y then (d.Cells.getD p.y.toNat []).getD p.x.toNat zeroCell
  else zeroCell

/-- Write `d.Cells[p.y][p.x] = c` (no-op outside the stored extent, which the
source never does). -/
def Dungeon.setCell (d : Dungeon) (p : Point) (c : Cell) : Dungeon :=
  if 0 ≤ p.x ∧ 0 ≤ p.y then
    { d with Cells := d.Cells.set p.y.toNat ((d.Cells.getD p.y.toNat []).set p.x.toNat c) }
  else d

/-- In-place update of one field of `d.Cells[p.y][p.x]` (the source assigns
to `.Type`, `.InteractionLevel`, … directly). -/
def Dungeon.modifyCell (d : Dungeon) (p : Point) (f : Cell → Cell) : Dungeon :=
  d.setCell p (f (d.getCell p))

/-- `inBounds` from the source. -/
def inBounds (x y width height : Int) : Bool :=
  0 ≤ x && x < width && 0 ≤ y && y < height

/-- Step-2 directions of the maze generator (left, right, up, down). -/
def mazeDirs : List Point := [⟨-2, 0⟩, ⟨2, 0⟩, ⟨0, -2⟩, ⟨0, 2⟩]

/-- Unit directions used by dead-end detection and `FindPath`
(up, right, down, left). -/
def dirs4 : List Point := [⟨0, -1⟩, ⟨1, 0⟩, ⟨0, 1⟩, ⟨-1, 0⟩]

/-- `fillWithWalls` from the source: set every stored cell's category to `Wall`. -/
def Dungeon.fillWithWalls (d : Dungeon) : Dungeon :=
  { d with Cells := d.Cells.map fun row => row.map fun c => { c with typ := .Wall } }

/-- `setCellEmpty` from the source. -/
def Dungeon.setCellEmpty (d : Dungeon) (p : Point) : Dungeon :=
  d.modifyCell p fun c => { c with typ := .Empty }

/-- `isEmpty` from the source: the cell is not a wall. -/
def Dungeon.isEmpty (d : Dungeon) (p : Point) : Bool :=
  (d.getCell p).typ != .Wall

/-- `getInitialWalls` from the source: the in-bounds step-2 neighbors of the start. -/
def Dungeon.getInitialWalls (d : Dungeon) (start : Point) : List Point :=
  mazeDirs.foldl
    (fun walls dir =>
      let next : Point := ⟨start.x + dir.x, start.y + dir.y⟩
      if inBounds next.x next.y d.Width d.Height then walls ++ [next] else walls)
    []

/-- `getEmptyNeighbors` from the source: in-bounds step-2 neighbors whose
category is `Empty`. -/
def Dungeon.getEmptyNeighbors (d : Dungeon) (wall : Point) : List Point :=
  mazeDirs.foldl
    (fun acc dir =>
      let next : Point := ⟨wall.x + dir.x, wall.y + dir.y⟩
      if inBounds next.x next.y d.Width d.Height && (d.getCell next).typ == .Empty
      then acc ++ [next] else acc)
    []

/-- `carvePath` from the source: empty the wall cell and the midpoint cell. -/
def Dungeon.carvePath (d : Dungeon) (wall neighbor : Point) : Dungeon :=
  let mid : Point := ⟨Int.tdiv (wall.x + neighbor.x) 2, Int.tdiv (wall.y + neighbor.y) 2⟩
  (d.setCellEmpty wall).setCellEmpty mid

/-- `addAdjacentWalls` from the source: push in-bounds step-2 neighbors that are
still walls. -/
def Dungeon.addAdjacentWalls (d : Dungeon) (wall : Point) (walls : List Point) :
    List Point :=
  mazeDirs.foldl
    (fun ws dir =>
      let next : Point := ⟨wall.x + dir.x, wall.y + dir.y⟩
      if inBounds next.x next.y d.Width d.Height && (d.getCell next).typ == .Wall
      then ws ++ [next] else ws)
    walls

/-- Number of stored cells whose category is `Wall` (measure for the generator
loop's termination; not part of the source). -/
def wallCount (cells : List (List Cell)) : Nat :=
  (cells.map fun row => (row.filter fun c => c.typ == .Wall).length).sum

/-- The `for len(walls) > 0` loop of `generateMaze`, with explicit fuel. One
iteration pops a uniformly chosen wall (`randomWall`), skips it if already
carved, and otherwise carves toward a random empty step-2 neighbor and pushes
the adjacent walls. Each iteration strictly decreases
`5 * wallCount + walls.length`, so the fuel passed by `generateMaze` lets the
loop run to `walls = []` exactly as the Go loop does. -/
def primLoop (d : Dungeon) (rng : Rng) (walls : List Point) : Nat → Dungeon × Rng
  | 0 => (d, rng)
  | fuel + 1 =>
    match walls with
    | [] => (d, rng)
    | _ :: _ =>
      let (idx, rng1) := rng.intn walls.length
      let wall := walls.getD idx ⟨0, 0⟩
      let walls1 := walls.eraseIdx idx
      if d.isEmpty wall then primLoop d rng1 walls1 fuel
      else
        let neighbors := d.getEmptyNeighbors wall
        if neighbors.length > 0 then
          let (j, rng2) := rng1.intn neighbors.length
          let neighbor := neighbors.getD j ⟨0, 0⟩
          let d1 := d.carvePath wall neighbor
          let walls2 := d1.addAdjacentWalls wall walls1
          primLoop d1 rng2 walls2 fuel
        else primLoop d rng1 walls1 fuel

/-- `generateMaze` from the source: fill with walls, empty the start cell (1,1),
seed the frontier, and run the carving loop. -/
def Dungeon.generateMaze (d : Dungeon) (rng : Rng) : Dungeon × Rng :=
  let d0 := d.fillWithWalls
  let start : Point := ⟨1, 1⟩
  let d1 := d0.setCellEmpty start
  let walls := d1.getInitialWalls start
  primLoop d1 rng walls (5 * wallCount d1.Cells + walls.length + 1)

/-- Number of `Empty` 4-neighbors of a cell, with the bounds check of the source. -/
def Dungeon.emptyNeighborCount (d : Dungeon) (p : Point) : Nat :=
  (dirs4.filter fun dir =>
    let n : Point := ⟨p.x + dir.x, p.y + dir.y⟩
    inBounds n.x n.y d.Width d.Height && (d.getCell n).typ == .Empty).length

/-- `findDeadEnds` from the source: interior `Empty` cells with exactly one
`Empty` 4-neighbor, scanned row by row. -/
def Dungeon.findDeadEnds (d : Dungeon) : List Point :=
  (List.range (d.Height - 2).toNat).foldl
    (fun acc (ry : Nat) =>
      let y : Int := (ry : Int) + 1
      (List.range (d.Width - 2).toNat).foldl
        (fun acc2 (rx : Nat) =>
          let x : Int := (rx : Int) + 1
          if (d.getCell ⟨x, y⟩).typ == .Empty && d.emptyNeighborCount ⟨x, y⟩ == 1
          then acc2 ++ [(⟨x, y⟩ : Point)] else acc2)
        acc)
    []

/-- Squared Euclidean distance, as computed inline by the source. -/
def sqDist (a b : Point) : Int :=
  (a.x - b.x) * (a.x - b.x) + (a.y - b.y) * (a.y - b.y)

/-- One inner sweep of the bubble sort in `sortDeadEndsByDistance`: walk the
first `k` adjacent pairs, swapping whenever the earlier point is strictly
closer to `point` than the later one (descending distance). -/
def bubblePass (point : Point) : List Point → Nat → List Point
  | l, 0 => l
  | a :: b :: rest, k + 1 =>
    if sqDist a point < sqDist b point then b :: bubblePass point (a :: rest) k
    else a :: bubblePass point (b :: rest) k
  | l, _ + 1 => l

/-- Outer loop of the bubble sort: `n - 1` sweeps with shrinking ranges. -/
def bubbleOuter (point : Point) : List Point → Nat → List Point
  | l, 0 => l
  | l, k + 1 => bubbleOuter point (bubblePass point l (k + 1)) k

/-- `sortDeadEndsByDistance` from the source: bubble sort, farthest first. -/
def sortDeadEndsByDistance (deadEnds : List Point) (point : Point) : List Point :=
  bubbleOuter point deadEnds (deadEnds.length - 1)

/-- `placeRandomFeature` from the source: rejection-sample a random interior
coordinate until its cell has the required category, then overwrite that cell
with a fresh cell of the new category. The Go loop has no bound (it spins
forever if no such cell exists), so the embedding takes fuel; the claims
quantify over all fuels, covering every terminating execution. -/
def Dungeon.placeRandomFeature (d : Dungeon) (rng : Rng)
    (required newType : CellType) : Nat → Option (Dungeon × Rng × Int × Int)
  | 0 => none
  | fuel + 1 =>
    let (rx, rng1) := rng.intn (d.Width - 2).toNat
    let (ry, rng2) := rng1.intn (d.Height - 2).toNat
    let x : Int := (rx : Int) + 1
    let y : Int := (ry : Int) + 1
    if (d.getCell ⟨x, y⟩).typ == required then
      some (d.setCell ⟨x, y⟩ { zeroCell with typ := newType }, rng2, x, y)
    else d.placeRandomFeature rng2 required newType fuel

/-- The exit-placement fallback loop of `NewDungeon`: place a tentative exit on
a random empty cell; accept it if its squared distance from the entrance is at
least `((width+height)/3)²` (recording `level + 1` in the cell), otherwise
revert the cell to `Empty` and retry. -/
def exitFallbackLoop (d : Dungeon) (rng : Rng) (entrance : Point) (level : Int)
    (tryFuel : Nat) : Nat → Option (Dungeon × Rng)
  | 0 => none
  | fuel + 1 =>
    match d.placeRandomFeature rng .Empty .Exit tryFuel with
    | none => none
    | some (d1, rng1, exitX, exitY) =>
      let minDistance := Int.tdiv (d.Width + d.Height) 3
      let dx := entrance.x - exitX
      let dy := entrance.y - exitY
      let distance := dx * dx + dy * dy
      if distance ≥ minDistance * minDistance then
        some ({ d1.modifyCell ⟨exitX, exitY⟩
                  (fun c => { c with InteractionLevel := level + 1 })
                with Exit := ⟨exitX, exitY⟩ }, rng1)
      else
        exitFallbackLoop (d1.setCell ⟨exitX, exitY⟩ zeroCell) rng1 entrance level
          tryFuel fuel

/-- `NumMonsters` from the source. -/
def NumMonsters : Nat := 10

/-- `NumTreasures` from the source. -/
def NumTreasures : Nat := 10

/-- The monster-placement loop of `NewDungeon`: place `n` monsters on empty
cells, each with level `level + rand.Intn 3 - 1` floored at 1 and a tier
thresholded on that level. -/
def placeMonsters (d : Dungeon) (rng : Rng) (level : Int) (tryFuel : Nat) :
    Nat → Option (Dungeon × Rng)
  | 0 => some (d, rng)
  | n + 1 =>
    match d.placeRandomFeature rng .Empty .Monster tryFuel with
    | none => none
    | some (d1, rng1, x, y) =>
      let (r, rng2) := rng1.intn 3
      let monsterLevel0 := level + (r : Int) - 1
      let monsterLevel := if monsterLevel0 < 1 then 1 else monsterLevel0
      let tier : MonsterTier :=
        if monsterLevel ≤ 2 then .TierEasy
        else if monsterLevel ≤ 4 then .TierMedium
        else if monsterLevel ≤ 6 then .TierHard
        else .TierBoss
      let d2 := d1.modifyCell ⟨x, y⟩
        fun c => { c with InteractionLevel := monsterLevel, MonsterTier := tier }
      placeMonsters d2 rng2 level tryFuel n

/-- Treasure variants drawn from, in source order. -/
def treasureTypes : List TreasureType := [.gold, .gems, .artifact, .potion]

/-- The treasure-placement loop of `NewDungeon`: place `n` treasures on empty
cells, each with value `level*10 + rand.Intn 20 - 10` floored at 10 and a
uniformly drawn variant. -/
def placeTreasures (d : Dungeon) (rng : Rng) (level : Int) (tryFuel : Nat) :
    Nat → Option (Dungeon × Rng)
  | 0 => some (d, rng)
  | n + 1 =>
    match d.placeRandomFeature rng .Empty .Treasure tryFuel with
    | none => none
    | some (d1, rng1, x, y) =>
      let (rv, rng2) := rng1.intn 20
      let treasureValue0 := level * 10 + (rv : Int) - 10
      let treasureValue := if treasureValue0 < 10 then 10 else treasureValue0
      let (rt, rng3) := rng2.intn treasureTypes.length
      let ttype := treasureTypes.getD rt .noneT
      let d2 := d1.modifyCell ⟨x, y⟩
        fun c => { c with InteractionLevel := treasureValue, TreasureType := ttype }
      placeTreasures d2 rng3 level tryFuel n

/-- The dungeon state right after maze generation, before feature placement. -/
def mazeStage (width height level : Int) (rng : Rng) : Dungeon × Rng :=
  let d0 : Dungeon :=
    { Cells := List.replicate height.toNat (List.replicate width.toNat wallCell),
      Width := width, Height := height, Entrance := ⟨0, 0⟩, Exit := ⟨0, 0⟩,
      Visited := List.replicate height.toNat (List.replicate width.toNat false),
      Level := level }
  d0.generateMaze rng

/-- The dungeon state right after entrance placement: the maze plus the
recorded entrance, or `none` if placement ran out of fuel. -/
def entranceStage (width height level : Int) (rng : Rng) (tryFuel : Nat) :
    Option (Dungeon × Rng) :=
  let (d1, rng1) := mazeStage width height level rng
  match d1.placeRandomFeature rng1 .Empty .Entrance tryFuel with
  | none => none
  | some (d2, rng2, ex, ey) => some ({ d2 with Entrance := ⟨ex, ey⟩ }, rng2)

/-- The dungeon state after exit placement (two-tier policy: farthest sorted
dead end, else the distance-threshold fallback). -/
def exitStage (width height level : Int) (rng : Rng) (tryFuel : Nat) :
    Option (Dungeon × Rng) :=
  match entranceStage width height level rng tryFuel with
  | none => none
  | some (d3, rng3) =>
    let deadEnds := sortDeadEndsByDistance d3.findDeadEnds d3.Entrance
    match deadEnds with
    | de0 :: _ =>
      some ({ d3.setCell de0 { zeroCell with typ := .Exit, InteractionLevel := level + 1 }
              with Exit := de0 }, rng3)
    | [] => exitFallbackLoop d3 rng3 d3.Entrance level tryFuel tryFuel

/-- `NewDungeon` from the source: generate the maze, place the entrance, the
exit (two-tier policy), `NumMonsters` monsters and `NumTreasures` treasures.
`tryFuel` bounds the unbounded Go retry loops; every terminating Go execution
is reproduced by a large enough `tryFuel`. -/
def NewDungeon (width height level : Int) (rng : Rng) (tryFuel : Nat) :
    Option Dungeon :=
  match exitStage width height level rng tryFuel with
  | none => none
  | some (d5, rng5) =>
    match placeMonsters d5 rng5 level tryFuel NumMonsters with
    | none => none
    | some (d6, rng6) =>
      match placeTreasures d6 rng6 level tryFuel NumTreasures with
      | none => none
      | some (d7, _) => some d7

/-- One BFS queue entry (`Node` in `FindPath`; the `Prev` pointer chain is
modelled as the list of ancestor positions, nearest first, and `Steps`, a Go
int that is only ever 0 or incremented, as `Nat`). -/
structure BfsNode where
  Pos : Point
  Steps : Nat
  Prev : List Point
deriving DecidableEq, Repr

/-- Fresh `visited` matrix of `FindPath`. -/
def mkVisited (width height : Int) : List (List Bool) :=
  List.replicate height.toNat (List.replicate width.toNat false)

/-- Read `visited[p.y][p.x]` (used only after the source's bounds checks). -/
def visGet (vis : List (List Bool)) (p : Point) : Bool :=
  (vis.getD p.y.toNat []).getD p.x.toNat false

/-- Set `visited[p.y][p.x] = true`. -/
def visSet (vis : List (List Bool)) (p : Point) : List (List Bool) :=
  vis.set p.y.toNat ((vis.getD p.y.toNat []).set p.x.toNat true)

/-- One direction of the neighbor scan of a dequeued BFS node: an in-bounds,
unvisited, non-wall neighbor is marked visited and enqueued with a back-pointer
to the current node. -/
def bfsStep (d : Dungeon) (cur : BfsNode) (acc : List (List Bool) × List BfsNode)
    (dir : Point) : List (List Bool) × List BfsNode :=
  let nx := cur.Pos.x + dir.x
  let ny := cur.Pos.y + dir.y
  if 0 ≤ nx && 0 ≤ ny && nx < d.Width && ny < d.Height &&
      !(visGet acc.1 ⟨nx, ny⟩) && (d.getCell ⟨nx, ny⟩).typ != .Wall then
    (visSet acc.1 ⟨nx, ny⟩,
     acc.2 ++ [⟨⟨nx, ny⟩, cur.Steps + 1, cur.Pos :: cur.Prev⟩])
  else acc

/-- The neighbor scan of one dequeued BFS node, in source direction order. -/
def bfsExpand (d : Dungeon) (cur : BfsNode) (vis : List (List Bool)) :
    List (List Bool) × List BfsNode :=
  dirs4.foldl (bfsStep d cur) (vis, [])

/-- The queue loop of `FindPath`, with explicit fuel: dequeue, stop on the
goal, otherwise expand. Every enqueue marks a previously unvisited in-bounds
cell, so `2 · (unvisited cells) + (queue length)` strictly decreases each
iteration and the fuel passed by `FindPath` lets the loop run to exhaustion
exactly as the Go loop does. -/
def bfsLoop (d : Dungeon) (goal : Point) :
    Nat → List (List Bool) → List BfsNode → Option BfsNode
  | 0, _, _ => none
  | _ + 1, _, [] => none
  | fuel + 1, vis, cur :: rest =>
    if cur.Pos = goal then some cur
    else
      let expanded := bfsExpand d cur vis
      bfsLoop d goal fuel expanded.1 (rest ++ expanded.2)

/-- `FindPath` from the source: breadth-first search from `start`; on reaching
`goal` the path is reconstructed from the back-pointers (complete, including
start and goal); `none` models Go's `nil` result. -/
def Dungeon.FindPath (d : Dungeon) (start goal : Point) : Option (List Point) :=
  let vis := mkVisited d.Width d.Height
  let fuel := 2 * (d.Width.toNat * d.Height.toNat) + 2
  match bfsLoop d goal fuel vis [⟨start, 0, []⟩] with
  | none => none
  | some node => some ((node.Pos :: node.Prev).reverse)

/-! Structural lemmas about the grid embedding. -/

/-- Well-formedness of the stored grid: the row count matches `Height` and every
row's length matches `Width`; every dungeon the source constructs satisfies it. -/
def Dungeon.WF (d : Dungeon) : Prop :=
  d.Cells.length = d.Height.toNat ∧ ∀ row ∈ d.Cells, row.length = d.Width.toNat

theorem setCell_Width (d : Dungeon) (p : Point) (c : Cell) :
    (d.setCell p c).Width = d.Width := by
  unfold Dungeon.setCell; split <;> rfl

theorem setCell_Height (d : Dungeon) (p : Point) (c : Cell) :
    (d.setCell p c).Height = d.Height := by
  unfold Dungeon.setCell; split <;> rfl

theorem setCell_Entrance (d : Dungeon) (p : Point) (c : Cell) :
    (d.setCell p c).Entrance = d.Entrance := by
  unfold Dungeon.setCell; split <;> rfl

theorem setCell_Exit (d : Dungeon) (p : Point) (c : Cell) :
    (d.setCell p c).Exit = d.Exit := by
  unfold Dungeon.setCell; split <;> rfl

theorem setCell_WF (d : Dungeon) (p : Point) (c : Cell) (h : d.WF) :
    (d.setCell p c).WF := by
  obtain ⟨h1, h2⟩ := h
  unfold Dungeon.setCell
  split
  · refine ⟨by simpa using h1, ?_⟩
    intro row hrow
    simp only at hrow
    rcases Nat.lt_or_ge p.y.toNat d.Cells.length with hy | hy
    · rcases List.mem_or_eq_of_mem_set hrow with hmem | rfl
      · exact h2 row hmem
      · rw [List.length_set, List.getD_eq_getElem _ _ hy]
        exact h2 _ (List.getElem_mem hy)
    · rw [List.set_eq_of_length_le hy] at hrow
      exact h2 row hrow
  · exact ⟨h1, h2⟩

theorem getCell_setCell_ne (d : Dungeon) (p q : Point) (c : Cell) (hne : q ≠ p) :
    (d.setCell p c).getCell q = d.getCell q := by
  unfold Dungeon.setCell Dungeon.getCell
  split
  · rename_i hp
    split
    · rename_i hq
      simp only
      rcases eq_or_ne q.y.toNat p.y.toNat with hyy | hyy
      · have hxx : q.x.toNat ≠ p.x.toNat := by
          intro hx
          apply hne
          have hqx : q.x = p.x := by omega
          have hqy : q.y = p.y := by omega
          cases q; cases p; simp_all
        rw [hyy]
        have houter : (d.Cells.set p.y.toNat ((d.Cells.getD p.y.toNat []).set p.x.toNat c)).getD
            p.y.toNat [] = (d.Cells.getD p.y.toNat []).set p.x.toNat c := by
          rcases Nat.lt_or_ge p.y.toNat d.Cells.length with hy | hy
          · rw [List.getD_eq_getElem?_getD, List.getElem?_set_self hy]
            rfl
          · rw [List.set_eq_of_length_le hy, List.getD_eq_default _ _ hy]
            simp
        rw [houter, List.getD_eq_getElem?_getD, List.getElem?_set_ne (Ne.symm hxx),
          ← List.getD_eq_getElem?_getD]
      · have houter : (d.Cells.set p.y.toNat ((d.Cells.getD p.y.toNat []).set p.x.toNat c)).getD
            q.y.toNat [] = d.Cells.getD q.y.toNat [] := by
          rw [List.getD_eq_getElem?_getD,
            List.getElem?_set_ne (by omega : p.y.toNat ≠ q.y.toNat),
            ← List.getD_eq_getElem?_getD]
        rw [houter]
    · rfl
  · rfl

theorem getCell_setCell_self (d : Dungeon) (p : Point) (c : Cell) (hwf : d.WF)
    (hin : inBounds p.x p.y d.Width d.Height = true) :
    (d.setCell p c).getCell p = c := by
  simp only [inBounds, Bool.and_eq_true, decide_eq_true_eq] at hin
  obtain ⟨⟨⟨hx0, hxw⟩, hy0⟩, hyh⟩ := hin
  have hyl : p.y.toNat < d.Cells.length := by rw [hwf.1]; omega
  have hrow : (d.Cells.getD p.y.toNat []).length = d.Width.toNat := by
    rw [List.getD_eq_getElem _ _ hyl]
    exact hwf.2 _ (List.getElem_mem hyl)
  have hxl : p.x.toNat < (d.Cells.getD p.y.toNat []).length := by omega
  unfold Dungeon.setCell Dungeon.getCell
  rw [if_pos ⟨hx0, hy0⟩, if_pos ⟨hx0, hy0⟩]
  simp only
  have houter : (d.Cells.set p.y.toNat ((d.Cells.getD p.y.toNat []).set p.x.toNat c)).getD
      p.y.toNat [] = (d.Cells.getD p.y.toNat []).set p.x.toNat c := by
    rw [List.getD_eq_getElem?_getD, List.getElem?_set_self hyl]
    rfl
  rw [houter, List.getD_eq_getElem?_getD, List.getElem?_set_self hxl]
  rfl

theorem getCell_not_inBounds (d : Dungeon) (p : Point) (hwf : d.WF)
    (h : inBounds p.x p.y d.Width d.Height = false) : d.getCell p = zeroCell := by
  unfold Dungeon.getCell
  split
  · rename_i hpos
    simp only [inBounds, Bool.and_eq_false_iff, decide_eq_false_iff_not, not_le, not_lt] at h
    rcases h with ((h | h) | h) | h
    · omega
    · rcases Nat.lt_or_ge p.y.toNat d.Cells.length with hy | hy
      · rw [List.getD_eq_getElem _ _ hy]
        have hrow := hwf.2 _ (List.getElem_mem hy)
        rw [List.getD_eq_default]
        rw [hrow]
        omega
      · rw [List.getD_eq_default _ _ hy]
        simp [List.getD]
    · omega
    · have hy : d.Cells.length ≤ p.y.toNat := by rw [hwf.1]; omega
      rw [List.getD_eq_default _ _ hy]
      simp [List.getD]
  · rfl

theorem getCell_wall_inBounds (d : Dungeon) (p : Point) (hwf : d.WF)
    (h : (d.getCell p).typ = .Wall) : inBounds p.x p.y d.Width d.Height = true := by
  by_contra hfalse
  rw [getCell_not_inBounds d p hwf (by simpa using hfalse)] at h
  simp [zeroCell] at h

/-- Accumulation principle for the conditional-append folds of the source. -/
theorem foldl_mem_induct {α β : Type} (P : β → Prop) :
    ∀ (l : List α) (f : List β → α → List β),
      (∀ acc a q, a ∈ l → q ∈ f acc a → q ∈ acc ∨ P q) →
      ∀ (init : List β) (q : β), q ∈ l.foldl f init → q ∈ init ∨ P q := by
  intro l
  induction l with
  | nil => intro f hf init q hq; exact Or.inl hq
  | cons a t ih =>
    intro f hf init q hq
    rcases ih f (fun acc b r hb hr => hf acc b r (List.mem_cons_of_mem _ hb) hr)
        (f init a) q hq with hmem | hP
    · exact hf init a q (List.mem_cons_self a t) hmem
    · exact Or.inr hP

theorem fillWithWalls_WF (d : Dungeon) (h : d.WF) : d.fillWithWalls.WF := by
  obtain ⟨h1, h2⟩ := h
  refine ⟨by simpa [Dungeon.fillWithWalls] using h1, ?_⟩
  intro row hrow
  simp only [Dungeon.fillWithWalls, List.mem_map] at hrow
  obtain ⟨r, hr, rfl⟩ := hrow
  simpa using h2 r hr

theorem getCell_fillWithWalls (d : Dungeon) (p : Point) (hwf : d.WF)
    (hin : inBounds p.x p.y d.Width d.Height = true) :
    ((d.fillWithWalls).getCell p).typ = .Wall := by
  simp only [inBounds, Bool.and_eq_true, decide_eq_true_eq] at hin
  obtain ⟨⟨⟨hx0, hxw⟩, hy0⟩, hyh⟩ := hin
  have hyl : p.y.toNat < d.Cells.length := by rw [hwf.1]; omega
  have hxl : p.x.toNat < (d.Cells.getD p.y.toNat []).length := by
    rw [List.getD_eq_getElem _ _ hyl]
    rw [hwf.2 _ (List.getElem_mem hyl)]
    omega
  unfold Dungeon.fillWithWalls Dungeon.getCell
  rw [if_pos ⟨hx0, hy0⟩]
  simp only
  have hyl' : p.y.toNat < (d.Cells.map fun row => row.map fun c => { c with typ := .Wall }).length := by
    simpa using hyl
  rw [List.getD_eq_getElem _ _ hyl', List.getElem_map]
  have hxl' : p.x.toNat < ((d.Cells[p.y.toNat]).map fun c => { c with typ := CellType.Wall }).length := by
    rw [List.length_map]
    rw [List.getD_eq_getElem _ _ hyl] at hxl
    exact hxl
  rw [List.getD_eq_getElem _ _ hxl', List.getElem_map]

theorem mem_getInitialWalls (d : Dungeon) (start q : Point)
    (h : q ∈ d.getInitialWalls start) :
    inBounds q.x q.y d.Width d.Height = true ∧
      ∃ dir ∈ mazeDirs, q = ⟨start.x + dir.x, start.y + dir.y⟩ := by
  unfold Dungeon.getInitialWalls at h
  rcases foldl_mem_induct
      (fun r : Point => inBounds r.x r.y d.Width d.Height = true ∧
        ∃ dir ∈ mazeDirs, r = (⟨start.x + dir.x, start.y + dir.y⟩ : Point))
      mazeDirs _
      (by
        intro acc dir r hdir hr
        simp only at hr
        split at hr
        · rename_i hcond
          rcases List.mem_append.1 hr with hacc | hnew
          · exact Or.inl hacc
          · simp only [List.mem_singleton] at hnew
            subst hnew
            exact Or.inr ⟨hcond, dir, hdir, rfl⟩
        · exact Or.inl hr)
      [] q h with hmem | hP
  · simp at hmem
  · exact hP

theorem mem_getEmptyNeighbors (d : Dungeon) (wall q : Point)
    (h : q ∈ d.getEmptyNeighbors wall) :
    inBounds q.x q.y d.Width d.Height = true ∧ (d.getCell q).typ = .Empty ∧
      ∃ dir ∈ mazeDirs, q = ⟨wall.x + dir.x, wall.y + dir.y⟩ := by
  unfold Dungeon.getEmptyNeighbors at h
  rcases foldl_mem_induct
      (fun r : Point => inBounds r.x r.y d.Width d.Height = true ∧
        (d.getCell r).typ = .Empty ∧
        ∃ dir ∈ mazeDirs, r = (⟨wall.x + dir.x, wall.y + dir.y⟩ : Point))
      mazeDirs _
      (by
        intro acc dir r hdir hr
        simp only at hr
        split at hr
        · rename_i hcond
          rcases List.mem_append.1 hr with hacc | hnew
          · exact Or.inl hacc
          · simp only [List.mem_singleton] at hnew
            subst hnew
            simp only [Bool.and_eq_true, beq_iff_eq] at hcond
            exact Or.inr ⟨hcond.1, hcond.2, dir, hdir, rfl⟩
        · exact Or.inl hr)
      [] q h with hmem | hP
  · simp at hmem
  · exact hP

theorem mem_addAdjacentWalls (d : Dungeon) (wall q : Point) (walls : List Point)
    (h : q ∈ d.addAdjacentWalls wall walls) :
    q ∈ walls ∨
      (inBounds q.x q.y d.Width d.Height = true ∧ (d.getCell q).typ = .Wall ∧
        ∃ dir ∈ mazeDirs, q = ⟨wall.x + dir.x, wall.y + dir.y⟩) := by
  unfold Dungeon.addAdjacentWalls at h
  refine foldl_mem_induct
      (fun r : Point => inBounds r.x r.y d.Width d.Height = true ∧
        (d.getCell r).typ = .Wall ∧
        ∃ dir ∈ mazeDirs, r = (⟨wall.x + dir.x, wall.y + dir.y⟩ : Point))
      mazeDirs _
      (by
        intro acc dir r hdir hr
        simp only at hr
        split at hr
        · rename_i hcond
          rcases List.mem_append.1 hr with hacc | hnew
          · exact Or.inl hacc
          · simp only [List.mem_singleton] at hnew
            subst hnew
            simp only [Bool.and_eq_true, beq_iff_eq] at hcond
            exact Or.inr ⟨hcond.1, hcond.2, dir, hdir, rfl⟩
        · exact Or.inl hr)
      walls q h

theorem mem_findDeadEnds (d : Dungeon) (q : Point) (h : q ∈ d.findDeadEnds) :
    1 ≤ q.x ∧ q.x ≤ d.Width - 2 ∧ 1 ≤ q.y ∧ q.y ≤ d.Height - 2 ∧
      (d.getCell q).typ = .Empty ∧ d.emptyNeighborCount q = 1 := by
  unfold Dungeon.findDeadEnds at h
  rcases foldl_mem_induct
      (fun r : Point => 1 ≤ r.x ∧ r.x ≤ d.Width - 2 ∧ 1 ≤ r.y ∧ r.y ≤ d.Height - 2 ∧
        (d.getCell r).typ = .Empty ∧ d.emptyNeighborCount r = 1)
      (List.range (d.Height - 2).toNat) _
      (by
        intro acc ry r hry hr
        refine foldl_mem_induct
          (fun r : Point => 1 ≤ r.x ∧ r.x ≤ d.Width - 2 ∧ 1 ≤ r.y ∧ r.y ≤ d.Height - 2 ∧
            (d.getCell r).typ = .Empty ∧ d.emptyNeighborCount r = 1)
          (List.range (d.Width - 2).toNat) _
          (by
            intro acc2 rx r2 hrx hr2
            simp only at hr2
            split at hr2
            · rename_i hcond
              rcases List.mem_append.1 hr2 with hacc | hnew
              · exact Or.inl hacc
              · simp only [List.mem_singleton] at hnew
                subst hnew
                simp only [Bool.and_eq_true, beq_iff_eq] at hcond
                rw [List.mem_range] at hry hrx
                refine Or.inr ⟨by show (1:Int) ≤ (rx : Int) + 1; omega,
                  by show (rx : Int) + 1 ≤ d.Width - 2; omega,
                  by show (1:Int) ≤ (ry : Int) + 1; omega,
                  by show (ry : Int) + 1 ≤ d.Height - 2; omega, hcond.1, hcond.2⟩
            · exact Or.inl hr2)
          acc r hr)
      [] q h with hmem | hP
  · simp at hmem
  · exact hP

theorem modifyCell_Width (d : Dungeon) (p : Point) (f : Cell → Cell) :
    (d.modifyCell p f).Width = d.Width := setCell_Width _ _ _

theorem modifyCell_Height (d : Dungeon) (p : Point) (f : Cell → Cell) :
    (d.modifyCell p f).Height = d.Height := setCell_Height _ _ _

theorem modifyCell_WF (d : Dungeon) (p : Point) (f : Cell → Cell) (h : d.WF) :
    (d.modifyCell p f).WF := setCell_WF _ _ _ h

theorem carvePath_Width (d : Dungeon) (w n : Point) : (d.carvePath w n).Width = d.Width := by
  unfold Dungeon.carvePath Dungeon.setCellEmpty
  rw [modifyCell_Width, modifyCell_Width]

theorem carvePath_Height (d : Dungeon) (w n : Point) : (d.carvePath w n).Height = d.Height := by
  unfold Dungeon.carvePath Dungeon.setCellEmpty
  rw [modifyCell_Height, modifyCell_Height]

theorem carvePath_WF (d : Dungeon) (w n : Point) (h : d.WF) : (d.carvePath w n).WF := by
  unfold Dungeon.carvePath Dungeon.setCellEmpty
  exact modifyCell_WF _ _ _ (modifyCell_WF _ _ _ h)

theorem intn_fst_lt (r : Rng) (n : Nat) (h : 0 < n) : (r.intn n).1 < n :=
  Nat.mod_lt _ h

theorem isEmpty_false_iff (d : Dungeon) (p : Point) :
    d.isEmpty p = false ↔ (d.getCell p).typ = .Wall := by
  simp [Dungeon.isEmpty]

theorem tdiv_two_exact (a : Int) : Int.tdiv (2 * a) 2 = a :=
  Int.mul_tdiv_cancel_left _ (by norm_num)

theorem getD_mem_of_lt (l : List Point) (i : Nat) (h : i < l.length) :
    l.getD i ⟨0, 0⟩ ∈ l := by
  rw [List.getD_eq_getElem _ _ h]
  exact List.getElem_mem h

theorem getCell_carvePath_ne (d : Dungeon) (w n p : Point) (h1 : p ≠ w)
    (h2 : p ≠ ⟨Int.tdiv (w.x + n.x) 2, Int.tdiv (w.y + n.y) 2⟩) :
    (d.carvePath w n).getCell p = d.getCell p := by
  unfold Dungeon.carvePath Dungeon.setCellEmpty Dungeon.modifyCell
  rw [getCell_setCell_ne _ _ _ _ h2, getCell_setCell_ne _ _ _ _ h1]

/-- Every in-bounds non-wall cell lies strictly inside the border. -/
def Dungeon.InteriorCarved (d : Dungeon) : Prop :=
  ∀ p : Point, inBounds p.x p.y d.Width d.Height = true →
    (d.getCell p).typ ≠ .Wall →
    1 ≤ p.x ∧ p.x ≤ d.Width - 2 ∧ 1 ≤ p.y ∧ p.y ≤ d.Height - 2

/-- Frontier invariant of the generator: queued walls are in bounds and have
two odd coordinates. -/
def OddWalls (d : Dungeon) (walls : List Point) : Prop :=
  ∀ p ∈ walls, inBounds p.x p.y d.Width d.Height = true ∧
    p.x % 2 = 1 ∧ p.y % 2 = 1

theorem modifyCell_Entrance (d : Dungeon) (p : Point) (f : Cell → Cell) :
    (d.modifyCell p f).Entrance = d.Entrance := setCell_Entrance _ _ _

theorem modifyCell_Exit (d : Dungeon) (p : Point) (f : Cell → Cell) :
    (d.modifyCell p f).Exit = d.Exit := setCell_Exit _ _ _

theorem carvePath_Entrance (d : Dungeon) (w n : Point) :
    (d.carvePath w n).Entrance = d.Entrance := by
  unfold Dungeon.carvePath Dungeon.setCellEmpty
  rw [modifyCell_Entrance, modifyCell_Entrance]

theorem carvePath_Exit (d : Dungeon) (w n : Point) :
    (d.carvePath w n).Exit = d.Exit := by
  unfold Dungeon.carvePath Dungeon.setCellEmpty
  rw [modifyCell_Exit, modifyCell_Exit]

theorem primLoop_frame :
    ∀ (fuel : Nat) (d : Dungeon) (rng : Rng) (walls : List Point),
      (primLoop d rng walls fuel).1.Width = d.Width ∧
      (primLoop d rng walls fuel).1.Height = d.Height ∧
      (primLoop d rng walls fuel).1.Entrance = d.Entrance ∧
      (primLoop d rng walls fuel).1.Exit = d.Exit := by
  intro fuel
  induction fuel with
  | zero => intro d rng walls; exact ⟨rfl, rfl, rfl, rfl⟩
  | succ fuel ih =>
    intro d rng walls
    cases walls with
    | nil => exact ⟨rfl, rfl, rfl, rfl⟩
    | cons w ws =>
      rw [primLoop]
      simp only
      split
      · exact ih _ _ _
      · split
        · refine ⟨?_, ?_, ?_, ?_⟩
          · rw [(ih _ _ _).1, carvePath_Width]
          · rw [(ih _ _ _).2.1, carvePath_Height]
          · rw [(ih _ _ _).2.2.1, carvePath_Entrance]
          · rw [(ih _ _ _).2.2.2, carvePath_Exit]
        · exact ih _ _ _

theorem carve_step_interior (d : Dungeon) (wall nb : Point) (hwf : d.WF)
    (hwo : d.Width % 2 = 1) (hho : d.Height % 2 = 1) (hint : d.InteriorCarved)
    (hwin : inBounds wall.x wall.y d.Width d.Height = true)
    (hwx : wall.x % 2 = 1) (hwy : wall.y % 2 = 1)
    (hnbin : inBounds nb.x nb.y d.Width d.Height = true)
    (hdir : ∃ dir ∈ mazeDirs, nb = ⟨wall.x + dir.x, wall.y + dir.y⟩) :
    (d.carvePath wall nb).InteriorCarved := by
  simp only [inBounds, Bool.and_eq_true, decide_eq_true_eq] at hwin hnbin
  have hmid : 1 ≤ Int.tdiv (wall.x + nb.x) 2 ∧ Int.tdiv (wall.x + nb.x) 2 ≤ d.Width - 2 ∧
      1 ≤ Int.tdiv (wall.y + nb.y) 2 ∧ Int.tdiv (wall.y + nb.y) 2 ≤ d.Height - 2 := by
    obtain ⟨dir, hdirmem, rfl⟩ := hdir
    simp only [mazeDirs, List.mem_cons, List.not_mem_nil, or_false] at hdirmem
    dsimp only at hnbin
    rcases hdirmem with rfl | rfl | rfl | rfl
    · dsimp only at hnbin ⊢
      rw [show wall.x + (wall.x + (-2)) = 2 * (wall.x - 1) by ring,
        show wall.y + (wall.y + 0) = 2 * wall.y by ring, tdiv_two_exact, tdiv_two_exact]
      omega
    · dsimp only at hnbin ⊢
      rw [show wall.x + (wall.x + 2) = 2 * (wall.x + 1) by ring,
        show wall.y + (wall.y + 0) = 2 * wall.y by ring, tdiv_two_exact, tdiv_two_exact]
      omega
    · dsimp only at hnbin ⊢
      rw [show wall.x + (wall.x + 0) = 2 * wall.x by ring,
        show wall.y + (wall.y + (-2)) = 2 * (wall.y - 1) by ring, tdiv_two_exact, tdiv_two_exact]
      omega
    · dsimp only at hnbin ⊢
      rw [show wall.x + (wall.x + 0) = 2 * wall.x by ring,
        show wall.y + (wall.y + 2) = 2 * (wall.y + 1) by ring, tdiv_two_exact, tdiv_two_exact]
      omega
  intro p hin hnw
  simp only [carvePath_Width, carvePath_Height] at hin ⊢
  by_cases hpw : p = wall
  · subst hpw
    omega
  · by_cases hpm : p = (⟨Int.tdiv (wall.x + nb.x) 2, Int.tdiv (wall.y + nb.y) 2⟩ : Point)
    · subst hpm
      dsimp only
      exact hmid
    · rw [getCell_carvePath_ne d wall nb p hpw hpm] at hnw
      exact hint p hin hnw

theorem addAdjacentWalls_odd (d : Dungeon) (wall : Point) (walls : List Point)
    (hwx : wall.x % 2 = 1) (hwy : wall.y % 2 = 1)
    (hws : OddWalls d walls) : OddWalls d (d.addAdjacentWalls wall walls) := by
  intro p hp
  rcases mem_addAdjacentWalls d wall p walls hp with h | ⟨hin, _, dir, hdir, rfl⟩
  · exact hws p h
  · refine ⟨hin, ?_, ?_⟩ <;>
      (simp only [mazeDirs, List.mem_cons, List.not_mem_nil, or_false] at hdir;
       rcases hdir with rfl | rfl | rfl | rfl <;> dsimp only <;> omega)

theorem primLoop_wf_interior :
    ∀ (fuel : Nat) (d : Dungeon) (rng : Rng) (walls : List Point),
      d.WF → d.Width % 2 = 1 → d.Height % 2 = 1 → d.InteriorCarved →
      OddWalls d walls →
      (primLoop d rng walls fuel).1.WF ∧ (primLoop d rng walls fuel).1.InteriorCarved := by
  intro fuel
  induction fuel with
  | zero => intro d rng walls hwf _ _ hint _; exact ⟨hwf, hint⟩
  | succ fuel ih =>
    intro d rng walls hwf hwo hho hint hwalls
    cases walls with
    | nil => exact ⟨hwf, hint⟩
    | cons w ws =>
      rw [primLoop]
      simp only
      have hidxlt : (rng.intn (w :: ws).length).1 < (w :: ws).length :=
        intn_fst_lt _ _ (by simp)
      have hwmem : (w :: ws).getD (rng.intn (w :: ws).length).1 ⟨0, 0⟩ ∈ (w :: ws) :=
        getD_mem_of_lt _ _ hidxlt
      obtain ⟨hwin, hwx, hwy⟩ := hwalls _ hwmem
      have hsubWalls : OddWalls d ((w :: ws).eraseIdx (rng.intn (w :: ws).length).1) :=
        fun p hp => hwalls p (List.eraseIdx_subset _ _ hp)
      split
      · exact ih _ _ _ hwf hwo hho hint hsubWalls
      · rename_i hnotEmpty
        split
        · rename_i hlen
          have hjlt : (((rng.intn (w :: ws).length).2.intn
              (d.getEmptyNeighbors ((w :: ws).getD (rng.intn (w :: ws).length).1 ⟨0, 0⟩)).length).1)
              < (d.getEmptyNeighbors ((w :: ws).getD (rng.intn (w :: ws).length).1 ⟨0, 0⟩)).length :=
            intn_fst_lt _ _ (by omega)
          have hnbmem := getD_mem_of_lt _ _ hjlt
          obtain ⟨hnbin, hnbEmpty, hnbdir⟩ := mem_getEmptyNeighbors d _ _ hnbmem
          refine ih _ _ _ (carvePath_WF _ _ _ hwf) ?_ ?_
            (carve_step_interior d _ _ hwf hwo hho hint hwin hwx hwy hnbin hnbdir) ?_
          · rw [carvePath_Width]; exact hwo
          · rw [carvePath_Height]; exact hho
          · refine addAdjacentWalls_odd _ _ _ hwx hwy ?_
            intro p hp
            obtain ⟨h1, h2, h3⟩ := hsubWalls p hp
            refine ⟨?_, h2, h3⟩
            rw [carvePath_Width, carvePath_Height]
            exact h1
        · exact ih _ _ _ hwf hwo hho hint hsubWalls

theorem mazeStage_spec (w h level : Int) (rng : Rng) (hw : 3 ≤ w) (hh : 3 ≤ h)
    (hwo : w % 2 = 1) (hho : h % 2 = 1) :
    (mazeStage w h level rng).1.WF ∧ (mazeStage w h level rng).1.Width = w ∧
      (mazeStage w h level rng).1.Height = h ∧
      (mazeStage w h level rng).1.InteriorCarved := by
  unfold mazeStage Dungeon.generateMaze
  set d0 : Dungeon :=
    { Cells := List.replicate h.toNat (List.replicate w.toNat wallCell),
      Width := w, Height := h, Entrance := ⟨0, 0⟩, Exit := ⟨0, 0⟩,
      Visited := List.replicate h.toNat (List.replicate w.toNat false),
      Level := level } with hd0
  have hwf0 : d0.WF := by
    constructor
    · simp [hd0]
    · intro row hrow
      rw [hd0] at hrow
      simp only [List.mem_replicate] at hrow
      rw [hrow.2]
      simp
  have hdw : d0.Width = w := rfl
  have hdh : d0.Height = h := rfl
  have hwff : (d0.fillWithWalls).WF := fillWithWalls_WF _ hwf0
  have hfw : (d0.fillWithWalls).Width = w := rfl
  have hfh : (d0.fillWithWalls).Height = h := rfl
  have hwf1 : ((d0.fillWithWalls).setCellEmpty ⟨1, 1⟩).WF := setCell_WF _ _ _ hwff
  have h1w : ((d0.fillWithWalls).setCellEmpty ⟨1, 1⟩).Width = w := rfl
  have h1h : ((d0.fillWithWalls).setCellEmpty ⟨1, 1⟩).Height = h := rfl
  have hint1 : ((d0.fillWithWalls).setCellEmpty ⟨1, 1⟩).InteriorCarved := by
    intro p hin hnw
    unfold Dungeon.setCellEmpty Dungeon.modifyCell at hin hnw ⊢
    rw [setCell_Width, setCell_Height] at hin ⊢
    by_cases hp : p = (⟨1, 1⟩ : Point)
    · subst hp
      dsimp only
      omega
    · rw [getCell_setCell_ne _ _ _ _ hp] at hnw
      exact absurd (getCell_fillWithWalls d0 p hwf0 (by exact hin)) hnw
  have hodd1 : OddWalls ((d0.fillWithWalls).setCellEmpty ⟨1, 1⟩)
      (((d0.fillWithWalls).setCellEmpty ⟨1, 1⟩).getInitialWalls ⟨1, 1⟩) := by
    intro p hp
    obtain ⟨hin, dir, hdir, rfl⟩ := mem_getInitialWalls _ _ _ hp
    refine ⟨hin, ?_, ?_⟩ <;>
      (simp only [mazeDirs, List.mem_cons, List.not_mem_nil, or_false] at hdir;
       rcases hdir with rfl | rfl | rfl | rfl <;> dsimp only <;> omega)
  have hloop := primLoop_wf_interior
    (5 * wallCount ((d0.fillWithWalls).setCellEmpty ⟨1, 1⟩).Cells +
      (((d0.fillWithWalls).setCellEmpty ⟨1, 1⟩).getInitialWalls ⟨1, 1⟩).length + 1)
    ((d0.fillWithWalls).setCellEmpty ⟨1, 1⟩) rng
    (((d0.fillWithWalls).setCellEmpty ⟨1, 1⟩).getInitialWalls ⟨1, 1⟩)
    hwf1 (by rw [h1w]; exact hwo) (by rw [h1h]; exact hho) hint1 hodd1
  have hframe := primLoop_frame
    (5 * wallCount ((d0.fillWithWalls).setCellEmpty ⟨1, 1⟩).Cells +
      (((d0.fillWithWalls).setCellEmpty ⟨1, 1⟩).getInitialWalls ⟨1, 1⟩).length + 1)
    ((d0.fillWithWalls).setCellEmpty ⟨1, 1⟩) rng
    (((d0.fillWithWalls).setCellEmpty ⟨1, 1⟩).getInitialWalls ⟨1, 1⟩)
  exact ⟨hloop.1, by rw [hframe.1]; exact h1w, by rw [hframe.2.1]; exact h1h, hloop.2⟩

theorem interior_setCell (d : Dungeon) (p : Point) (c : Cell)
    (hint : d.InteriorCarved) (hx : 1 ≤ p.x) (hx2 : p.x ≤ d.Width - 2)
    (hy : 1 ≤ p.y) (hy2 : p.y ≤ d.Height - 2) :
    (d.setCell p c).InteriorCarved := by
  intro q hin hnw
  simp only [setCell_Width, setCell_Height] at hin ⊢
  by_cases hqp : q = p
  · subst hqp
    exact ⟨hx, hx2, hy, hy2⟩
  · rw [getCell_setCell_ne _ _ _ _ hqp] at hnw
    exact hint q hin hnw

theorem placeRandomFeature_spec :
    ∀ (fuel : Nat) (d : Dungeon) (rng : Rng) (req newType : CellType)
      (d1 : Dungeon) (rng1 : Rng) (x y : Int),
      3 ≤ d.Width → 3 ≤ d.Height →
      d.placeRandomFeature rng req newType fuel = some (d1, rng1, x, y) →
      1 ≤ x ∧ x ≤ d.Width - 2 ∧ 1 ≤ y ∧ y ≤ d.Height - 2 ∧
        (d.getCell ⟨x, y⟩).typ = req ∧
        d1 = d.setCell ⟨x, y⟩ { zeroCell with typ := newType } := by
  intro fuel
  induction fuel with
  | zero => intro d rng req newType d1 rng1 x y _ _ h; exact absurd h (by simp [Dungeon.placeRandomFeature])
  | succ fuel ih =>
    intro d rng req newType d1 rng1 x y hw hh h
    rw [Dungeon.placeRandomFeature] at h
    simp only at h
    split at h
    · rename_i hcond
      simp only [Option.some.injEq, Prod.mk.injEq] at h
      obtain ⟨hd1, hrng1, hx, hy⟩ := h
      subst hd1 hx hy
      have h1 : (rng.intn (d.Width - 2).toNat).1 < (d.Width - 2).toNat :=
        intn_fst_lt _ _ (by omega)
      have h2 : ((rng.intn (d.Width - 2).toNat).2.intn (d.Height - 2).toNat).1 <
          (d.Height - 2).toNat := intn_fst_lt _ _ (by omega)
      simp only [beq_iff_eq] at hcond
      refine ⟨by omega, by omega, by omega, by omega, hcond, rfl⟩
    · exact ih _ _ _ _ _ _ _ _ hw hh h

theorem bubblePass_perm (pt : Point) :
    ∀ (k : Nat) (l : List Point), (bubblePass pt l k).Perm l := by
  intro k
  induction k with
  | zero => intro l; rw [bubblePass]
  | succ k ih =>
    intro l
    match l with
    | [] => exact List.Perm.refl _
    | [a] => exact List.Perm.refl _
    | a :: b :: rest =>
      rw [bubblePass]
      split
      · exact ((ih (a :: rest)).cons b).trans (List.Perm.swap a b rest)
      · exact (ih (b :: rest)).cons a

theorem bubbleOuter_perm (pt : Point) :
    ∀ (k : Nat) (l : List Point), (bubbleOuter pt l k).Perm l := by
  intro k
  induction k with
  | zero => intro l; rw [bubbleOuter]
  | succ k ih =>
    intro l
    rw [bubbleOuter]
    exact (ih _).trans (bubblePass_perm pt (k + 1) l)

theorem sortDeadEnds_perm (l : List Point) (pt : Point) :
    (sortDeadEndsByDistance l pt).Perm l :=
  bubbleOuter_perm pt _ l

theorem exitFallbackLoop_spec :
    ∀ (fuel : Nat) (tryFuel : Nat) (d : Dungeon) (rng : Rng) (entrance : Point)
      (level : Int) (d' : Dungeon) (rng' : Rng),
      3 ≤ d.Width → 3 ≤ d.Height → d.WF →
      exitFallbackLoop d rng entrance level tryFuel fuel = some (d', rng') →
      d'.WF ∧ d'.Width = d.Width ∧ d'.Height = d.Height ∧
      d'.Entrance = d.Entrance ∧
      (d.InteriorCarved → d'.InteriorCarved) ∧
      ∃ q : Point,
        d'.Exit = q ∧ 1 ≤ q.x ∧ q.x ≤ d.Width - 2 ∧ 1 ≤ q.y ∧ q.y ≤ d.Height - 2 ∧
        (entrance.x - q.x) * (entrance.x - q.x) +
            (entrance.y - q.y) * (entrance.y - q.y) ≥
          Int.tdiv (d.Width + d.Height) 3 * Int.tdiv (d.Width + d.Height) 3 ∧
        (d.getCell q).typ = .Empty ∧
        d'.getCell q = { zeroCell with typ := .Exit, InteractionLevel := level + 1 } ∧
        (∀ p : Point, p ≠ q → (d'.getCell p).typ = (d.getCell p).typ) := by
  intro fuel
  induction fuel with
  | zero =>
    intro tryFuel d rng entrance level d' rng' _ _ _ h
    exact absurd h (by simp [exitFallbackLoop])
  | succ fuel ih =>
    intro tryFuel d rng entrance level d' rng' hw hh hwf h
    rw [exitFallbackLoop] at h
    simp only at h
    cases hplace : d.placeRandomFeature rng .Empty .Exit tryFuel with
    | none => rw [hplace] at h; exact absurd h (by simp)
    | some res =>
      obtain ⟨d1, rng1, ex, ey⟩ := res
      rw [hplace] at h
      obtain ⟨hx1, hx2, hy1, hy2, hreq, hd1eq⟩ :=
        placeRandomFeature_spec tryFuel d rng .Empty .Exit d1 rng1 ex ey hw hh hplace
      have hexin : inBounds ex ey d.Width d.Height = true := by
        simp only [inBounds, Bool.and_eq_true, decide_eq_true_eq]
        omega
      have hwf1 : d1.WF := hd1eq ▸ setCell_WF _ _ _ hwf
      simp only at h
      split at h
      · rename_i hdist
        simp only [Option.some.injEq, Prod.mk.injEq] at h
        obtain ⟨hd', hrng'⟩ := h
        subst hd'
        refine ⟨modifyCell_WF _ _ _ hwf1, ?_, ?_, ?_, ?_, ⟨ex, ey⟩, rfl, hx1, hx2, hy1, hy2,
          hdist, hreq, ?_, ?_⟩
        · rw [modifyCell_Width, hd1eq, setCell_Width]
        · rw [modifyCell_Height, hd1eq, setCell_Height]
        · rw [modifyCell_Entrance, hd1eq, setCell_Entrance]
        · intro hint
          unfold Dungeon.modifyCell
          refine interior_setCell _ _ _ ?_ hx1 ?_ hy1 ?_
          · rw [hd1eq]
            exact interior_setCell _ _ _ hint hx1 hx2 hy1 hy2
          · rw [hd1eq, setCell_Width]; exact hx2
          · rw [hd1eq, setCell_Height]; exact hy2
        · show (d1.modifyCell ⟨ex, ey⟩ _).getCell ⟨ex, ey⟩ = _
          unfold Dungeon.modifyCell
          rw [getCell_setCell_self _ _ _ hwf1
              (by rw [hd1eq, setCell_Width, setCell_Height]; exact hexin),
            hd1eq, getCell_setCell_self _ _ _ hwf hexin]
        · intro p hpq
          show ((d1.modifyCell ⟨ex, ey⟩ _).getCell p).typ = _
          unfold Dungeon.modifyCell
          rw [getCell_setCell_ne _ _ _ _ hpq, hd1eq, getCell_setCell_ne _ _ _ _ hpq]
      · have hrev : ∀ p : Point,
            ((d1.setCell ⟨ex, ey⟩ zeroCell).getCell p).typ = (d.getCell p).typ := by
          intro p
          by_cases hp : p = (⟨ex, ey⟩ : Point)
          · subst hp
            rw [getCell_setCell_self _ _ _ hwf1
                (by rw [hd1eq, setCell_Width, setCell_Height]; exact hexin), hreq]
            rfl
          · rw [getCell_setCell_ne _ _ _ _ hp, hd1eq, getCell_setCell_ne _ _ _ _ hp]
        obtain ⟨h1, h2, h3, h4, h5, q, hqx, hq1, hq2, hq3, hq4, hq5, hqe, hq6, hq7⟩ :=
          ih tryFuel (d1.setCell ⟨ex, ey⟩ zeroCell) rng1 entrance level d' rng'
            (by rw [setCell_Width, hd1eq, setCell_Width]; exact hw)
            (by rw [setCell_Height, hd1eq, setCell_Height]; exact hh)
            (setCell_WF _ _ _ hwf1) h
        have hW' : (d1.setCell ⟨ex, ey⟩ zeroCell).Width = d.Width := by
          rw [setCell_Width, hd1eq, setCell_Width]
        have hH' : (d1.setCell ⟨ex, ey⟩ zeroCell).Height = d.Height := by
          rw [setCell_Height, hd1eq, setCell_Height]
        refine ⟨h1, by rw [h2, hW'], by rw [h3, hH'],
          by rw [h4, setCell_Entrance, hd1eq, setCell_Entrance], ?_,
          q, hqx, hq1, by rw [hW'] at hq2; exact hq2, hq3,
          by rw [hH'] at hq4; exact hq4, ?_, by rw [← hrev q]; exact hqe, hq6, ?_⟩
        · intro hint
          refine h5 ?_
          refine interior_setCell _ _ _ ?_ hx1 ?_ hy1 ?_
          · rw [hd1eq]
            exact interior_setCell _ _ _ hint hx1 hx2 hy1 hy2
          · rw [hd1eq, setCell_Width]; exact hx2
          · rw [hd1eq, setCell_Height]; exact hy2
        · rw [hW', hH'] at hq5
          exact hq5
        · intro p hpq
          rw [hq7 p hpq, hrev p]

theorem feature_step_facts (d : Dungeon) (x y : Int) (f : Cell → Cell)
    (newType : CellType) (hw : 3 ≤ d.Width) (hh : 3 ≤ d.Height) (hwf : d.WF)
    (hx1 : 1 ≤ x) (hx2 : x ≤ d.Width - 2) (hy1 : 1 ≤ y) (hy2 : y ≤ d.Height - 2)
    (hreq : (d.getCell ⟨x, y⟩).typ = .Empty) :
    let d2 := (d.setCell ⟨x, y⟩ { zeroCell with typ := newType }).modifyCell ⟨x, y⟩ f
    d2.WF ∧ d2.Width = d.Width ∧ d2.Height = d.Height ∧
    d2.Entrance = d.Entrance ∧ d2.Exit = d.Exit ∧
    (d.InteriorCarved → d2.InteriorCarved) ∧
    (∀ p : Point, p ≠ ⟨x, y⟩ → d2.getCell p = d.getCell p) ∧
    d2.getCell ⟨x, y⟩ = f { zeroCell with typ := newType } := by
  intro d2
  have hxin : inBounds x y d.Width d.Height = true := by
    simp only [inBounds, Bool.and_eq_true, decide_eq_true_eq]
    omega
  have hwf1 : (d.setCell ⟨x, y⟩ { zeroCell with typ := newType }).WF := setCell_WF _ _ _ hwf
  refine ⟨modifyCell_WF _ _ _ hwf1,
    by show (Dungeon.modifyCell _ _ _).Width = _; rw [modifyCell_Width, setCell_Width],
    by show (Dungeon.modifyCell _ _ _).Height = _; rw [modifyCell_Height, setCell_Height],
    by show (Dungeon.modifyCell _ _ _).Entrance = _; rw [modifyCell_Entrance, setCell_Entrance],
    by show (Dungeon.modifyCell _ _ _).Exit = _; rw [modifyCell_Exit, setCell_Exit],
    ?_, ?_, ?_⟩
  · intro hint
    show (Dungeon.modifyCell _ _ _).InteriorCarved
    unfold Dungeon.modifyCell
    refine interior_setCell _ _ _ ?_ hx1 ?_ hy1 ?_
    · exact interior_setCell _ _ _ hint hx1 hx2 hy1 hy2
    · rw [setCell_Width]; exact hx2
    · rw [setCell_Height]; exact hy2
  · intro p hp
    show (Dungeon.modifyCell _ _ _).getCell p = _
    unfold Dungeon.modifyCell
    rw [getCell_setCell_ne _ _ _ _ hp, getCell_setCell_ne _ _ _ _ hp]
  · show (Dungeon.modifyCell _ _ _).getCell _ = _
    unfold Dungeon.modifyCell
    rw [getCell_setCell_self _ _ _ hwf1 (by rw [setCell_Width, setCell_Height]; exact hxin),
      getCell_setCell_self _ _ _ hwf hxin]

theorem placeMonsters_spec :
    ∀ (count : Nat) (d : Dungeon) (rng : Rng) (level : Int) (tryFuel : Nat)
      (d' : Dungeon) (rng' : Rng),
      3 ≤ d.Width → 3 ≤ d.Height → d.WF →
      placeMonsters d rng level tryFuel count = some (d', rng') →
      d'.WF ∧ d'.Width = d.Width ∧ d'.Height = d.Height ∧
        d'.Entrance = d.Entrance ∧ d'.Exit = d.Exit ∧
        (d.InteriorCarved → d'.InteriorCarved) ∧
        (∀ p : Point, (d.getCell p).typ ≠ .Empty → d'.getCell p = d.getCell p) ∧
        (∀ p : Point, ((d'.getCell p).typ = .Wall ↔ (d.getCell p).typ = .Wall)) := by
  intro count
  induction count with
  | zero =>
    intro d rng level tryFuel d' rng' _ _ hwf h
    rw [placeMonsters] at h
    simp only [Option.some.injEq, Prod.mk.injEq] at h
    obtain ⟨rfl, rfl⟩ := h
    exact ⟨hwf, rfl, rfl, rfl, rfl, id, fun p _ => rfl, fun p => Iff.rfl⟩
  | succ n ih =>
    intro d rng level tryFuel d' rng' hw hh hwf h
    rw [placeMonsters] at h
    simp only at h
    cases hplace : d.placeRandomFeature rng .Empty .Monster tryFuel with
    | none => rw [hplace] at h; exact absurd h (by simp)
    | some res =>
      obtain ⟨d1, rng1, x, y⟩ := res
      rw [hplace] at h
      simp only at h
      obtain ⟨hx1, hx2, hy1, hy2, hreq, hd1eq⟩ :=
        placeRandomFeature_spec _ _ _ _ _ _ _ _ _ hw hh hplace
      rw [hd1eq] at h
      obtain ⟨h2wf, h2W, h2H, h2E, h2X, h2I, h2ne, h2at⟩ :=
        feature_step_facts d x y _ .Monster hw hh hwf hx1 hx2 hy1 hy2 hreq
      obtain ⟨g1, g2, g3, g4, g5, g6, g7, g8⟩ :=
        ih _ _ level tryFuel d' rng' (by rw [h2W]; exact hw) (by rw [h2H]; exact hh) h2wf h
      refine ⟨g1, by rw [g2, h2W], by rw [g3, h2H], by rw [g4, h2E], by rw [g5, h2X],
        fun hint => g6 (h2I hint), ?_, ?_⟩
      · intro p hp
        have hpxy : p ≠ (⟨x, y⟩ : Point) := by
          intro heq
          rw [heq] at hp
          exact hp hreq
        rw [g7 p (by rw [h2ne p hpxy]; exact hp), h2ne p hpxy]
      · intro p
        by_cases hpxy : p = (⟨x, y⟩ : Point)
        · subst hpxy
          rw [g8, h2at, hreq]
          constructor
          · intro hcon
            simp at hcon
          · intro hcon
            simp at hcon
        · rw [g8, h2ne p hpxy]

theorem placeTreasures_spec :
    ∀ (count : Nat) (d : Dungeon) (rng : Rng) (level : Int) (tryFuel : Nat)
      (d' : Dungeon) (rng' : Rng),
      3 ≤ d.Width → 3 ≤ d.Height → d.WF →
      placeTreasures d rng level tryFuel count = some (d', rng') →
      d'.WF ∧ d'.Width = d.Width ∧ d'.Height = d.Height ∧
        d'.Entrance = d.Entrance ∧ d'.Exit = d.Exit ∧
        (d.InteriorCarved → d'.InteriorCarved) ∧
        (∀ p : Point, (d.getCell p).typ ≠ .Empty → d'.getCell p = d.getCell p) ∧
        (∀ p : Point, ((d'.getCell p).typ = .Wall ↔ (d.getCell p).typ = .Wall)) := by
  intro count
  induction count with
  | zero =>
    intro d rng level tryFuel d' rng' _ _ hwf h
    rw [placeTreasures] at h
    simp only [Option.some.injEq, Prod.mk.injEq] at h
    obtain ⟨rfl, rfl⟩ := h
    exact ⟨hwf, rfl, rfl, rfl, rfl, id, fun p _ => rfl, fun p => Iff.rfl⟩
  | succ n ih =>
    intro d rng level tryFuel d' rng' hw hh hwf h
    rw [placeTreasures] at h
    simp only at h
    cases hplace : d.placeRandomFeature rng .Empty .Treasure tryFuel with
    | none => rw [hplace] at h; exact absurd h (by simp)
    | some res =>
      obtain ⟨d1, rng1, x, y⟩ := res
      rw [hplace] at h
      simp only at h
      obtain ⟨hx1, hx2, hy1, hy2, hreq, hd1eq⟩ :=
        placeRandomFeature_spec _ _ _ _ _ _ _ _ _ hw hh hplace
      rw [hd1eq] at h
      obtain ⟨h2wf, h2W, h2H, h2E, h2X, h2I, h2ne, h2at⟩ :=
        feature_step_facts d x y _ .Treasure hw hh hwf hx1 hx2 hy1 hy2 hreq
      obtain ⟨g1, g2, g3, g4, g5, g6, g7, g8⟩ :=
        ih _ _ level tryFuel d' rng' (by rw [h2W]; exact hw) (by rw [h2H]; exact hh) h2wf h
      refine ⟨g1, by rw [g2, h2W], by rw [g3, h2H], by rw [g4, h2E], by rw [g5, h2X],
        fun hint => g6 (h2I hint), ?_, ?_⟩
      · intro p hp
        have hpxy : p ≠ (⟨x, y⟩ : Point) := by
          intro heq
          rw [heq] at hp
          exact hp hreq
        rw [g7 p (by rw [h2ne p hpxy]; exact hp), h2ne p hpxy]
      · intro p
        by_cases hpxy : p = (⟨x, y⟩ : Point)
        · subst hpxy
          rw [g8, h2at, hreq]
          constructor
          · intro hcon
            simp at hcon
          · intro hcon
            simp at hcon
        · rw [g8, h2ne p hpxy]

theorem primLoop_WF :
    ∀ (fuel : Nat) (d : Dungeon) (rng : Rng) (walls : List Point),
      d.WF → (primLoop d rng walls fuel).1.WF := by
  intro fuel
  induction fuel with
  | zero => intro d rng walls hwf; exact hwf
  | succ fuel ih =>
    intro d rng walls hwf
    cases walls with
    | nil => exact hwf
    | cons w ws =>
      rw [primLoop]
      simp only
      split
      · exact ih _ _ _ hwf
      · split
        · exact ih _ _ _ (carvePath_WF _ _ _ hwf)
        · exact ih _ _ _ hwf

theorem mazeStage_basic (w h level : Int) (rng : Rng) :
    (mazeStage w h level rng).1.WF ∧ (mazeStage w h level rng).1.Width = w ∧
      (mazeStage w h level rng).1.Height = h := by
  unfold mazeStage Dungeon.generateMaze
  set d0 : Dungeon :=
    { Cells := List.replicate h.toNat (List.replicate w.toNat wallCell),
      Width := w, Height := h, Entrance := ⟨0, 0⟩, Exit := ⟨0, 0⟩,
      Visited := List.replicate h.toNat (List.replicate w.toNat false),
      Level := level } with hd0
  have hwf0 : d0.WF := by
    constructor
    · simp [hd0]
    · intro row hrow
      rw [hd0] at hrow
      simp only [List.mem_replicate] at hrow
      rw [hrow.2]
      simp
  have hwf1 : ((d0.fillWithWalls).setCellEmpty ⟨1, 1⟩).WF :=
    setCell_WF _ _ _ (fillWithWalls_WF _ hwf0)
  have hframe := primLoop_frame
    (5 * wallCount ((d0.fillWithWalls).setCellEmpty ⟨1, 1⟩).Cells +
      (((d0.fillWithWalls).setCellEmpty ⟨1, 1⟩).getInitialWalls ⟨1, 1⟩).length + 1)
    ((d0.fillWithWalls).setCellEmpty ⟨1, 1⟩) rng
    (((d0.fillWithWalls).setCellEmpty ⟨1, 1⟩).getInitialWalls ⟨1, 1⟩)
  exact ⟨primLoop_WF _ _ _ _ hwf1, hframe.1, hframe.2.1⟩

theorem entranceStage_spec (w h level : Int) (rng : Rng) (tryFuel : Nat)
    (d3 : Dungeon) (rng3 : Rng) (hw : 3 ≤ w) (hh : 3 ≤ h)
    (hrun : entranceStage w h level rng tryFuel = some (d3, rng3)) :
    d3.WF ∧ d3.Width = w ∧ d3.Height = h ∧
      1 ≤ d3.Entrance.x ∧ d3.Entrance.x ≤ w - 2 ∧
      1 ≤ d3.Entrance.y ∧ d3.Entrance.y ≤ h - 2 ∧
      d3.getCell d3.Entrance = { zeroCell with typ := .Entrance } ∧
      (∀ p : Point, p ≠ d3.Entrance →
        d3.getCell p = (mazeStage w h level rng).1.getCell p) ∧
      ((mazeStage w h level rng).1.getCell d3.Entrance).typ = .Empty ∧
      ((w % 2 = 1 → h % 2 = 1 → d3.InteriorCarved)) := by
  obtain ⟨mwf, mW, mH⟩ := mazeStage_basic w h level rng
  have hIntM : w % 2 = 1 → h % 2 = 1 → (mazeStage w h level rng).1.InteriorCarved :=
    fun hwo hho => (mazeStage_spec w h level rng hw hh hwo hho).2.2.2
  unfold entranceStage at hrun
  cases hms : mazeStage w h level rng with
  | mk dm rngm =>
    rw [hms] at hrun mwf mW mH hIntM
    simp only at hrun mwf mW mH hIntM
    cases hplace : dm.placeRandomFeature rngm .Empty .Entrance tryFuel with
    | none => rw [hplace] at hrun; exact absurd hrun (by simp)
    | some res =>
      obtain ⟨d2, rng2, ex, ey⟩ := res
      rw [hplace] at hrun
      simp only [Option.some.injEq, Prod.mk.injEq] at hrun
      obtain ⟨rfl, rfl⟩ := hrun
      obtain ⟨hx1, hx2, hy1, hy2, hreq, hd2eq⟩ :=
        placeRandomFeature_spec _ _ _ _ _ _ _ _ _ (by omega) (by omega) hplace
      rw [mW] at hx2
      rw [mH] at hy2
      have hexin : inBounds ex ey dm.Width dm.Height = true := by
        simp only [inBounds, Bool.and_eq_true, decide_eq_true_eq]
        omega
      dsimp only
      refine ⟨?_, ?_, ?_, hx1, hx2, hy1, hy2, ?_, ?_, hreq, ?_⟩
      · show d2.WF
        rw [hd2eq]
        exact setCell_WF _ _ _ mwf
      · show d2.Width = w
        rw [hd2eq, setCell_Width]
        exact mW
      · show d2.Height = h
        rw [hd2eq, setCell_Height]
        exact mH
      · show d2.getCell ⟨ex, ey⟩ = _
        rw [hd2eq, getCell_setCell_self _ _ _ mwf hexin]
      · intro p hp
        show d2.getCell p = _
        rw [hd2eq, getCell_setCell_ne _ _ _ _ hp]
      · intro hwo hho
        have mInt := hIntM hwo hho
        show d2.InteriorCarved
        intro p hin hnw
        rw [hd2eq, setCell_Width, setCell_Height, mW, mH] at hin
        by_cases hpe : p = (⟨ex, ey⟩ : Point)
        · subst hpe
          rw [hd2eq, setCell_Width, setCell_Height, mW, mH]
          dsimp only
          omega
        · rw [hd2eq] at hnw
          rw [getCell_setCell_ne _ _ _ _ hpe] at hnw
          have := mInt p (by rw [mW, mH]; exact hin) hnw
          rw [mW, mH] at this
          rw [hd2eq, setCell_Width, setCell_Height, mW, mH]
          exact this

theorem exitStage_spec (w h level : Int) (rng : Rng) (tryFuel : Nat)
    (d5 : Dungeon) (rng5 : Rng) (hw : 3 ≤ w) (hh : 3 ≤ h)
    (hrun : exitStage w h level rng tryFuel = some (d5, rng5)) :
    ∃ d3 rng3, entranceStage w h level rng tryFuel = some (d3, rng3) ∧
      d5.WF ∧ d5.Width = w ∧ d5.Height = h ∧ d5.Entrance = d3.Entrance ∧
      (d3.InteriorCarved → d5.InteriorCarved) ∧
      1 ≤ d5.Exit.x ∧ d5.Exit.x ≤ w - 2 ∧ 1 ≤ d5.Exit.y ∧ d5.Exit.y ≤ h - 2 ∧
      (d5.getCell d5.Exit).typ = .Exit ∧
      (d5.getCell d5.Exit).InteractionLevel = level + 1 ∧
      (d3.getCell d5.Exit).typ = .Empty ∧
      (∀ p : Point, p ≠ d5.Exit → (d5.getCell p).typ = (d3.getCell p).typ) ∧
      (∀ de0 rest, sortDeadEndsByDistance d3.findDeadEnds d3.Entrance = de0 :: rest →
        d5.Exit = de0) ∧
      (sortDeadEndsByDistance d3.findDeadEnds d3.Entrance = [] →
        sqDist d3.Entrance d5.Exit ≥ Int.tdiv (w + h) 3 * Int.tdiv (w + h) 3) := by
  unfold exitStage at hrun
  cases hent : entranceStage w h level rng tryFuel with
  | none => rw [hent] at hrun; exact absurd hrun (by simp)
  | some res =>
    obtain ⟨d3, rng3⟩ := res
    rw [hent] at hrun
    simp only at hrun
    obtain ⟨hwf3, hW3, hH3, _, _, _, _, _, _, _, _⟩ :=
      entranceStage_spec w h level rng tryFuel d3 rng3 hw hh hent
    refine ⟨d3, rng3, rfl, ?_⟩
    split at hrun
    · rename_i de0 rest hsort
      simp only [Option.some.injEq, Prod.mk.injEq] at hrun
      obtain ⟨rfl, rfl⟩ := hrun
      have hde0 : de0 ∈ d3.findDeadEnds :=
        (sortDeadEnds_perm d3.findDeadEnds d3.Entrance).mem_iff.mp (by rw [hsort]; simp)
      obtain ⟨hb1, hb2, hb3, hb4, hbEmpty, _⟩ := mem_findDeadEnds d3 de0 hde0
      rw [hW3] at hb2
      rw [hH3] at hb4
      have hdein : inBounds de0.x de0.y d3.Width d3.Height = true := by
        simp only [inBounds, Bool.and_eq_true, decide_eq_true_eq]
        omega
      dsimp only
      refine ⟨?_, ?_, ?_, setCell_Entrance _ _ _, ?_, hb1, hb2, hb3, hb4, ?_, ?_, hbEmpty,
        ?_, ?_, ?_⟩
      · show (d3.setCell de0 { zeroCell with typ := .Exit, InteractionLevel := level + 1 }).WF
        exact setCell_WF _ _ _ hwf3
      · show (d3.setCell de0 _).Width = w
        rw [setCell_Width]
        exact hW3
      · show (d3.setCell de0 _).Height = h
        rw [setCell_Height]
        exact hH3
      · intro hint
        show (d3.setCell de0 _).InteriorCarved
        exact interior_setCell _ _ _ hint hb1 (by rw [hW3]; exact hb2) hb3
          (by rw [hH3]; exact hb4)
      · show ((d3.setCell de0 _).getCell de0).typ = _
        rw [getCell_setCell_self _ _ _ hwf3 hdein]
      · show ((d3.setCell de0 _).getCell de0).InteractionLevel = _
        rw [getCell_setCell_self _ _ _ hwf3 hdein]
      · intro p hp
        show ((d3.setCell de0 _).getCell p).typ = _
        rw [getCell_setCell_ne _ _ _ _ hp]
      · intro de0' rest' hcons
        rw [hsort] at hcons
        simp only [List.cons.injEq] at hcons
        exact hcons.1
      · intro hcon
        rw [hsort] at hcon
        exact absurd hcon (by simp)
    · rename_i hsort
      obtain ⟨g1, g2, g3, g4, g5, q, hqx, hq1, hq2, hq3, hq4, hq5, hqe, hq6, hq7⟩ :=
        exitFallbackLoop_spec tryFuel tryFuel d3 rng3 d3.Entrance level d5 rng5
          (by omega) (by omega) hwf3 hrun
      rw [hW3] at hq2
      rw [hH3] at hq4
      subst hqx
      refine ⟨g1, by rw [g2, hW3], by rw [g3, hH3], g4, g5, hq1, hq2, hq3, hq4,
        by rw [hq6], by rw [hq6], hqe, hq7, ?_, ?_⟩
      · intro de0 rest hcon
        rw [hsort] at hcon
        exact absurd hcon (by simp)
      · intro _
        show sqDist d3.Entrance d5.Exit ≥ _
        unfold sqDist
        rw [hW3, hH3] at hq5
        exact hq5

theorem NewDungeon_spec (w h level : Int) (rng : Rng) (tryFuel : Nat) (d : Dungeon)
    (hw : 3 ≤ w) (hh : 3 ≤ h)
    (hrun : NewDungeon w h level rng tryFuel = some d) :
    ∃ d5 rng5, exitStage w h level rng tryFuel = some (d5, rng5) ∧
      d.WF ∧ d.Width = w ∧ d.Height = h ∧
      d.Entrance = d5.Entrance ∧ d.Exit = d5.Exit ∧
      (d5.InteriorCarved → d.InteriorCarved) ∧
      (∀ p : Point, (d5.getCell p).typ ≠ .Empty → d.getCell p = d5.getCell p) ∧
      (∀ p : Point, ((d.getCell p).typ = .Wall ↔ (d5.getCell p).typ = .Wall)) := by
  unfold NewDungeon at hrun
  cases hexit : exitStage w h level rng tryFuel with
  | none => rw [hexit] at hrun; exact absurd hrun (by simp)
  | some res5 =>
    obtain ⟨d5, rng5⟩ := res5
    rw [hexit] at hrun
    simp only at hrun
    obtain ⟨_, _, _, g1, g2, g3, _⟩ := exitStage_spec w h level rng tryFuel d5 rng5 hw hh hexit
    cases hmon : placeMonsters d5 rng5 level tryFuel NumMonsters with
    | none => rw [hmon] at hrun; exact absurd hrun (by simp)
    | some res6 =>
      obtain ⟨d6, rng6⟩ := res6
      rw [hmon] at hrun
      simp only at hrun
      obtain ⟨m1, m2, m3, m4, m5, m6, m7, m8⟩ :=
        placeMonsters_spec NumMonsters d5 rng5 level tryFuel d6 rng6
          (by omega) (by omega) g1 hmon
      cases htre : placeTreasures d6 rng6 level tryFuel NumTreasures with
      | none => rw [htre] at hrun; exact absurd hrun (by simp)
      | some res7 =>
        obtain ⟨d7, rng7⟩ := res7
        rw [htre] at hrun
        simp only [Option.some.injEq] at hrun
        subst hrun
        obtain ⟨t1, t2, t3, t4, t5, t6, t7, t8⟩ :=
          placeTreasures_spec NumTreasures d6 rng6 level tryFuel d7 rng7
            (by omega) (by omega) m1 htre
        refine ⟨d5, rng5, rfl, t1, by rw [t2, m2, g2], by rw [t3, m3, g3],
          by rw [t4, m4], by rw [t5, m5], fun hint => t6 (m6 hint), ?_, ?_⟩
        · intro p hp
          have h6 : d6.getCell p = d5.getCell p := m7 p hp
          have h7 : d7.getCell p = d6.getCell p := t7 p (by rw [h6]; exact hp)
          rw [h7, h6]
        · intro p
          exact (t8 p).trans (m8 p)

/-- C4 (amended): when both dimensions are odd (and at least the minimal viable
size), every in-bounds border cell of a grid returned by `NewDungeon` is a
`Wall`: the generator only ever carves cells with both coordinates odd — which
odd dimensions keep off the border — and every feature is placed on interior
coordinates. -/
theorem newDungeon_border_wall (w h level : Int) (rng : Rng) (tryFuel : Nat)
    (d : Dungeon) (hw : 5 ≤ w) (hh : 5 ≤ h) (hwo : w % 2 = 1) (hho : h % 2 = 1)
    (hrun : NewDungeon w h level rng tryFuel = some d) (p : Point)
    (hin : inBounds p.x p.y w h = true)
    (hborder : p.x = 0 ∨ p.x = w - 1 ∨ p.y = 0 ∨ p.y = h - 1) :
    (d.getCell p).typ = .Wall := by
  obtain ⟨d5, rng5, hexit, hwf, hW, hH, _, _, hIntImp, _, _⟩ :=
    NewDungeon_spec w h level rng tryFuel d (by omega) (by omega) hrun
  obtain ⟨d3, rng3, hent, _, _, _, _, hInt5, _⟩ :=
    exitStage_spec w h level rng tryFuel d5 rng5 (by omega) (by omega) hexit
  obtain ⟨_, _, _, _, _, _, _, _, _, _, hInt3⟩ :=
    entranceStage_spec w h level rng tryFuel d3 rng3 (by omega) (by omega) hent
  have hIntd : d.InteriorCarved := hIntImp (hInt5 (hInt3 hwo hho))
  by_contra hnw
  have hbounds := hIntd p (by rw [hW, hH]; exact hin) hnw
  rw [hW, hH] at hbounds
  simp only [inBounds, Bool.and_eq_true, decide_eq_true_eq] at hin
  omega

theorem bubblePass_length (pt : Point) (k : Nat) (l : List Point) :
    (bubblePass pt l k).length = l.length :=
  (bubblePass_perm pt k l).length_eq

theorem bubblePass_drop (pt : Point) :
    ∀ (k : Nat) (l : List Point), (bubblePass pt l k).drop (k + 1) = l.drop (k + 1) := by
  intro k
  induction k with
  | zero => intro l; rw [bubblePass]
  | succ k ih =>
    intro l
    match l with
    | [] => rfl
    | [a] => rfl
    | a :: c :: rest =>
      rw [bubblePass]
      split
      · show (c :: bubblePass pt (a :: rest) k).drop (k + 1 + 1) = _
        rw [List.drop_succ_cons, ih (a :: rest), List.drop_succ_cons, List.drop_succ_cons,
          List.drop_succ_cons]
      · show (a :: bubblePass pt (c :: rest) k).drop (k + 1 + 1) = _
        rw [List.drop_succ_cons, ih (c :: rest), List.drop_succ_cons, List.drop_succ_cons,
          List.drop_succ_cons]

theorem bubblePass_take_perm (pt : Point) :
    ∀ (k : Nat) (l : List Point),
      ((bubblePass pt l k).take (k + 1)).Perm (l.take (k + 1)) := by
  intro k
  induction k with
  | zero => intro l; rw [bubblePass]
  | succ k ih =>
    intro l
    match l with
    | [] => exact List.Perm.refl _
    | [a] => exact List.Perm.refl _
    | a :: c :: rest =>
      rw [bubblePass]
      split
      · show ((c :: bubblePass pt (a :: rest) k).take (k + 1 + 1)).Perm
          ((a :: c :: rest).take (k + 1 + 1))
        rw [List.take_succ_cons, List.take_succ_cons, List.take_succ_cons]
        exact ((ih (a :: rest)).cons c).trans
          (by rw [List.take_succ_cons]; exact List.Perm.swap a c _)
      · show ((a :: bubblePass pt (c :: rest) k).take (k + 1 + 1)).Perm
          ((a :: c :: rest).take (k + 1 + 1))
        rw [List.take_succ_cons, List.take_succ_cons]
        exact ((ih (c :: rest)).cons a).trans (by rw [List.take_succ_cons])

theorem bubblePass_last_min (pt : Point) :
    ∀ (k : Nat) (l : List Point), k < l.length →
      ∀ b ∈ l.take (k + 1),
        sqDist ((bubblePass pt l k).getD k ⟨0, 0⟩) pt ≤ sqDist b pt := by
  intro k
  induction k with
  | zero =>
    intro l hk b hb
    match l, hk with
    | a :: t, _ =>
      rw [bubblePass]
      simp only [List.take_succ_cons, List.take_zero, List.mem_singleton] at hb
      subst hb
      simp only [List.getD_cons_zero]
      exact le_refl _
  | succ k ih =>
    intro l hk b hb
    match l, hk with
    | [a], hk => simp at hk
    | a :: c :: rest, hk =>
      have hlen : k < rest.length + 1 := by
        simp only [List.length_cons] at hk
        omega
      simp only [List.take_succ_cons, List.mem_cons] at hb
      rw [bubblePass]
      split
      · rename_i hswap
        rw [List.getD_cons_succ]
        have ihc := ih (a :: rest) (by simpa using hlen)
        have hle_a : sqDist ((bubblePass pt (a :: rest) k).getD k ⟨0, 0⟩) pt ≤
            sqDist a pt := ihc a (by rw [List.take_succ_cons]; exact List.mem_cons_self _ _)
        rcases hb with rfl | rfl | hbr
        · exact hle_a
        · exact hle_a.trans hswap.le
        · exact ihc b (by rw [List.take_succ_cons]; exact List.mem_cons_of_mem _ hbr)
      · rename_i hnswap
        rw [List.getD_cons_succ]
        have ihc := ih (c :: rest) (by simpa using hlen)
        have hle_c : sqDist ((bubblePass pt (c :: rest) k).getD k ⟨0, 0⟩) pt ≤
            sqDist c pt := ihc c (by rw [List.take_succ_cons]; exact List.mem_cons_self _ _)
        rcases hb with rfl | rfl | hbr
        · exact hle_c.trans (not_lt.mp hnswap)
        · exact hle_c
        · exact ihc b (by rw [List.take_succ_cons]; exact List.mem_cons_of_mem _ hbr)

/-- Suffix-domination: every element at or past position `m` is at most every
element before position `m`, by squared distance from `pt`. -/
def DomSuffix (pt : Point) (l : List Point) (m : Nat) : Prop :=
  ∀ a ∈ l.drop m, ∀ b ∈ l.take m, sqDist a pt ≤ sqDist b pt

theorem bubbleOuter_dom (pt : Point) :
    ∀ (k : Nat) (l : List Point), k + 1 ≤ l.length → DomSuffix pt l (k + 1) →
      DomSuffix pt (bubbleOuter pt l k) 1 := by
  intro k
  induction k with
  | zero => intro l _ hdom; rw [bubbleOuter]; exact hdom
  | succ k ih =>
    intro l hlen hdom
    rw [bubbleOuter]
    refine ih _ (by rw [bubblePass_length]; omega) ?_
    intro a ha b hb
    have hklen : k + 1 < l.length := by omega
    have hpasslen : k + 1 < (bubblePass pt l (k + 1)).length := by
      rw [bubblePass_length]
      omega
    have hb2 : b ∈ l.take (k + 2) := by
      have hb' : b ∈ (bubblePass pt l (k + 1)).take (k + 2) := by
        rw [List.take_succ]
        exact List.mem_append_left _ hb
      exact (bubblePass_take_perm pt (k + 1) l).mem_iff.mp hb'
    rw [List.drop_eq_getElem_cons hpasslen] at ha
    rcases List.mem_cons.mp ha with rfl | har
    · have := bubblePass_last_min pt (k + 1) l hklen b hb2
      rwa [List.getD_eq_getElem _ _ hpasslen] at this
    · rw [bubblePass_drop] at har
      exact hdom a har b hb2

theorem sortDeadEnds_head_max (l : List Point) (pt de0 : Point) (rest : List Point)
    (hsort : sortDeadEndsByDistance l pt = de0 :: rest) :
    de0 ∈ l ∧ ∀ q ∈ l, sqDist q pt ≤ sqDist de0 pt := by
  have hperm := sortDeadEnds_perm l pt
  rw [hsort] at hperm
  have hmem : de0 ∈ l := hperm.mem_iff.mp (List.mem_cons_self _ _)
  have hlen : l.length = rest.length + 1 := by
    rw [← hperm.length_eq]
    simp
  refine ⟨hmem, ?_⟩
  intro q hq
  have hdom := bubbleOuter_dom pt (l.length - 1) l (by omega) ?_
  · unfold sortDeadEndsByDistance at hsort
    rw [hsort] at hdom
    have hq' : q ∈ de0 :: rest := hperm.mem_iff.mpr hq
    rcases List.mem_cons.mp hq' with rfl | hqr
    · exact le_refl _
    · exact hdom q (by simpa using hqr) de0 (by simp)
  · intro a ha b hb
    rw [show l.length - 1 + 1 = l.length by omega, List.drop_length] at ha
    exact absurd ha (List.not_mem_nil a)

/-- C5: exit placement of `NewDungeon` follows the two-tier policy. With `d3`
the grid right after entrance placement: if `findDeadEnds` is nonempty the exit
sits on a dead end whose squared distance from the entrance is maximal among
all dead ends; otherwise its squared distance from the entrance is at least
`((width+height)/3)²`, and the exit-placement stage changed no cell's category
other than the exit cell itself (every rejected fallback attempt is reverted to
`Empty`). In both cases the exit cell of the finished dungeon has category
`Exit` and `interactionLevel = level + 1`. -/
theorem newDungeon_exit_policy (w h level : Int) (rng : Rng) (tryFuel : Nat)
    (d : Dungeon) (hw : 3 ≤ w) (hh : 3 ≤ h)
    (hrun : NewDungeon w h level rng tryFuel = some d) :
    ∃ d3 rng3 d5 rng5,
      entranceStage w h level rng tryFuel = some (d3, rng3) ∧
      exitStage w h level rng tryFuel = some (d5, rng5) ∧
      d.Exit = d5.Exit ∧ d.Entrance = d3.Entrance ∧
      (d.getCell d.Exit).typ = .Exit ∧
      (d.getCell d.Exit).InteractionLevel = level + 1 ∧
      (d3.getCell d5.Exit).typ = .Empty ∧
      (∀ p : Point, p ≠ d5.Exit → (d5.getCell p).typ = (d3.getCell p).typ) ∧
      (d3.findDeadEnds ≠ [] →
        d5.Exit ∈ d3.findDeadEnds ∧
        ∀ q ∈ d3.findDeadEnds, sqDist q d3.Entrance ≤ sqDist d5.Exit d3.Entrance) ∧
      (d3.findDeadEnds = [] →
        sqDist d3.Entrance d5.Exit ≥ Int.tdiv (w + h) 3 * Int.tdiv (w + h) 3) := by
  obtain ⟨d5, rng5, hexit, hwf, hW, hH, hEnt, hExit, _, hne, _⟩ :=
    NewDungeon_spec w h level rng tryFuel d hw hh hrun
  obtain ⟨d3, rng3, hent, _, _, _, hEnt5, _, _, _, _, _, hty5, hIL5, hEmpty3, hrevert,
      hdeadhead, hfall⟩ := exitStage_spec w h level rng tryFuel d5 rng5 hw hh hexit
  have hcell : d.getCell d5.Exit = d5.getCell d5.Exit := by
    refine hne d5.Exit ?_
    rw [hty5]
    intro hcon
    cases hcon
  refine ⟨d3, rng3, d5, rng5, hent, hexit, hExit, by rw [hEnt, hEnt5], ?_, ?_, hEmpty3,
    hrevert, ?_, ?_⟩
  · rw [hExit, hcell]
    exact hty5
  · rw [hExit, hcell]
    exact hIL5
  · intro hnonempty
    cases hsort : sortDeadEndsByDistance d3.findDeadEnds d3.Entrance with
    | nil =>
      have := (sortDeadEnds_perm d3.findDeadEnds d3.Entrance).length_eq
      rw [hsort] at this
      cases hfde : d3.findDeadEnds with
      | nil => exact absurd hfde hnonempty
      | cons a t => rw [hfde] at this; simp at this
    | cons de0 rest =>
      obtain ⟨hmem, hmax⟩ := sortDeadEnds_head_max d3.findDeadEnds d3.Entrance de0 rest hsort
      rw [hdeadhead de0 rest hsort]
      exact ⟨hmem, hmax⟩
  · intro hempty
    refine hfall ?_
    unfold sortDeadEndsByDistance
    rw [hempty]
    rfl

/-! Correctness toolkit for `FindPath`. -/

/-- A point inside the stored extent (the BFS bounds check). -/
def inExtent (d : Dungeon) (p : Point) : Prop :=
  0 ≤ p.x ∧ 0 ≤ p.y ∧ p.x < d.Width ∧ p.y < d.Height

/-- 4-adjacency in the direction order of `FindPath`. -/
def Adj (p q : Point) : Prop :=
  ∃ dir ∈ dirs4, q.x = p.x + dir.x ∧ q.y = p.y + dir.y

/-- A point the BFS may step onto: in extent and not a wall. -/
def okStep (d : Dungeon) (p : Point) : Prop :=
  inExtent d p ∧ (d.getCell p).typ ≠ .Wall

/-- A valid `FindPath` route: starts at `start`, ends at `goal`, consecutive
points 4-adjacent, and every point after the first in extent and non-wall (the
source never checks the start cell itself). -/
def ValidPath (d : Dungeon) (start goal : Point) (l : List Point) : Prop :=
  l.head? = some start ∧ l.getLast? = some goal ∧ l.Chain' Adj ∧
  ∀ p ∈ l.tail, okStep d p

/-- The route recorded in a BFS node's back-pointer chain. -/
def nodePath (n : BfsNode) : List Point := (n.Pos :: n.Prev).reverse

/-- Invariant of a queued BFS node: its recorded route is a valid path from
`start` to its own position with exactly `Steps` hops. -/
def NodeOK (d : Dungeon) (start : Point) (n : BfsNode) : Prop :=
  (nodePath n).head? = some start ∧ (nodePath n).getLast? = some n.Pos ∧
  (nodePath n).Chain' Adj ∧ (∀ p ∈ (nodePath n).tail, okStep d p) ∧
  (nodePath n).length = n.Steps + 1

/-- Well-formed visited matrix: its dimensions match the dungeon's. -/
def VisWF (d : Dungeon) (vis : List (List Bool)) : Prop :=
  vis.length = d.Height.toNat ∧ ∀ row ∈ vis, row.length = d.Width.toNat

/-- Number of unvisited entries (the BFS termination measure). -/
def falseCount (vis : List (List Bool)) : Nat :=
  (vis.map fun row => row.countP fun b => ! b).sum

/-- The BFS loop invariant: the visited matrix is well formed, every queued
node carries a valid route, queue step counts are sorted within a band of one,
and every valid path to `goal` has a queued node sitting on it at an index at
least the node's step count, the rest of the path being unvisited. -/
def BfsInv (d : Dungeon) (start goal : Point) (vis : List (List Bool))
    (queue : List BfsNode) : Prop :=
  VisWF d vis ∧
  (∀ n ∈ queue, NodeOK d start n) ∧
  List.Pairwise (fun a b : BfsNode => a.Steps ≤ b.Steps ∧ b.Steps ≤ a.Steps + 1) queue ∧
  ∀ m, ValidPath d start goal m → ∃ n ∈ queue, ∃ j : Nat, j < m.length ∧
    m.getD j ⟨0, 0⟩ = n.Pos ∧ n.Steps ≤ j ∧
    ∀ i : Nat, j < i → i < m.length → visGet vis (m.getD i ⟨0, 0⟩) = false

theorem getD_mem_lt {α : Type} (l : List α) (i : Nat) (dflt : α) (h : i < l.length) :
    l.getD i dflt ∈ l := by
  rw [List.getD_eq_getElem _ _ h]
  exact List.getElem_mem h

theorem point_eq_of_toNat (p q : Point) (hp0 : 0 ≤ p.x ∧ 0 ≤ p.y)
    (hq0 : 0 ≤ q.x ∧ 0 ≤ q.y) (hx : p.x.toNat = q.x.toNat)
    (hy : p.y.toNat = q.y.toNat) : p = q := by
  cases p with
  | mk px py =>
    cases q with
    | mk qx qy =>
      simp only at hp0 hq0 hx hy
      simp only [Point.mk.injEq]
      omega

theorem visGet_mkVisited (w h : Int) (p : Point) : visGet (mkVisited w h) p = false := by
  unfold visGet mkVisited
  have houter : (List.replicate h.toNat (List.replicate w.toNat false)).getD p.y.toNat [] =
      List.replicate w.toNat false ∨
      (List.replicate h.toNat (List.replicate w.toNat false)).getD p.y.toNat [] = [] := by
    rcases Nat.lt_or_ge p.y.toNat h.toNat with hy | hy
    · left
      rw [List.getD_eq_getElem _ _ (by simp only [List.length_replicate]; exact hy)]
      simp
    · right
      exact List.getD_eq_default _ _ (by simp only [List.length_replicate]; exact hy)
  rcases houter with h1 | h1 <;> rw [h1]
  · rcases Nat.lt_or_ge p.x.toNat w.toNat with hx | hx
    · rw [List.getD_eq_getElem _ _ (by simp only [List.length_replicate]; exact hx)]
      simp
    · exact List.getD_eq_default _ _ (by simp only [List.length_replicate]; exact hx)
  · simp

theorem VisWF_mkVisited (d : Dungeon) : VisWF d (mkVisited d.Width d.Height) := by
  constructor
  · simp [mkVisited]
  · intro row hrow
    rw [List.eq_of_mem_replicate hrow]
    simp

theorem VisWF_visSet (d : Dungeon) (vis : List (List Bool)) (p : Point)
    (hwf : VisWF d vis) (hp : inExtent d p) : VisWF d (visSet vis p) := by
  obtain ⟨h1, h2⟩ := hwf
  obtain ⟨hx0, hy0, hxw, hyh⟩ := hp
  constructor
  · rw [visSet, List.length_set]
    exact h1
  · intro row hrow
    rcases List.mem_or_eq_of_mem_set hrow with hmem | heq
    · exact h2 _ hmem
    · rw [heq, List.length_set]
      exact h2 _ (getD_mem_lt _ _ _ (by omega))

theorem visGet_visSet_self (d : Dungeon) (vis : List (List Bool)) (p : Point)
    (hwf : VisWF d vis) (hp : inExtent d p) : visGet (visSet vis p) p = true := by
  obtain ⟨hlen, hrows⟩ := hwf
  obtain ⟨hx0, hy0, hxw, hyh⟩ := hp
  have hylt : p.y.toNat < vis.length := by omega
  have hxlt : p.x.toNat < (vis.getD p.y.toNat []).length := by
    rw [hrows _ (getD_mem_lt _ _ _ hylt)]
    omega
  unfold visGet visSet
  rw [List.getD_eq_getElem?_getD (vis.set p.y.toNat ((vis.getD p.y.toNat []).set p.x.toNat true))
      p.y.toNat,
    List.getElem?_set_self hylt, Option.getD_some,
    List.getD_eq_getElem?_getD ((vis.getD p.y.toNat []).set p.x.toNat true) p.x.toNat,
    List.getElem?_set_self hxlt, Option.getD_some]

theorem visGet_visSet_ne (vis : List (List Bool)) (p q : Point)
    (hne : p.x.toNat ≠ q.x.toNat ∨ p.y.toNat ≠ q.y.toNat) :
    visGet (visSet vis p) q = visGet vis q := by
  unfold visGet visSet
  by_cases hy : p.y.toNat = q.y.toNat
  · have hx : p.x.toNat ≠ q.x.toNat := by tauto
    rw [← hy]
    by_cases hylt : p.y.toNat < vis.length
    · rw [List.getD_eq_getElem?_getD
          (vis.set p.y.toNat ((vis.getD p.y.toNat []).set p.x.toNat true)) p.y.toNat,
        List.getElem?_set_self hylt, Option.getD_some,
        List.getD_eq_getElem?_getD ((vis.getD p.y.toNat []).set p.x.toNat true) q.x.toNat,
        List.getElem?_set_ne hx, ← List.getD_eq_getElem?_getD]
    · rw [List.set_eq_of_length_le (by omega)]
  · rw [List.getD_eq_getElem?_getD
        (vis.set p.y.toNat ((vis.getD p.y.toNat []).set p.x.toNat true)) q.y.toNat,
      List.getElem?_set_ne hy, ← List.getD_eq_getElem?_getD]

theorem countP_set_true : ∀ (r : List Bool) (i : Nat), i < r.length →
    r.getD i false = false →
    (r.set i true).countP (fun b => ! b) + 1 = r.countP (fun b => ! b) := by
  intro r
  induction r with
  | nil => intro i hi _; simp at hi
  | cons b t ih =>
    intro i hi hv
    cases i with
    | zero =>
      simp only [List.getD_cons_zero] at hv
      subst hv
      simp [List.countP_cons]
    | succ i =>
      simp only [List.set]
      rw [List.countP_cons, List.countP_cons]
      have := ih i (by simpa using hi) (by simpa using hv)
      omega

theorem falseCount_set : ∀ (vis : List (List Bool)) (i : Nat) (r' : List Bool),
    i < vis.length →
    (r'.countP fun b => ! b) + 1 = ((vis.getD i []).countP fun b => ! b) →
    falseCount (vis.set i r') + 1 = falseCount vis := by
  intro vis
  induction vis with
  | nil => intro i r' hi _; simp at hi
  | cons v t ih =>
    intro i r' hi hcnt
    cases i with
    | zero =>
      simp only [List.getD_cons_zero] at hcnt
      simp only [List.set, falseCount, List.map_cons, List.sum_cons]
      omega
    | succ i =>
      simp only [List.getD_cons_succ] at hcnt
      simp only [List.set, falseCount, List.map_cons, List.sum_cons]
      have := ih i r' (by simpa using hi) hcnt
      unfold falseCount at this
      omega

theorem falseCount_visSet (d : Dungeon) (vis : List (List Bool)) (p : Point)
    (hwf : VisWF d vis) (hp : inExtent d p) (hv : visGet vis p = false) :
    falseCount (visSet vis p) + 1 = falseCount vis := by
  obtain ⟨hlen, hrows⟩ := hwf
  obtain ⟨hx0, hy0, hxw, hyh⟩ := hp
  have hylt : p.y.toNat < vis.length := by omega
  have hxlt : p.x.toNat < (vis.getD p.y.toNat []).length := by
    rw [hrows _ (getD_mem_lt _ _ _ hylt)]
    omega
  unfold visSet
  refine falseCount_set vis _ _ hylt ?_
  exact countP_set_true _ _ hxlt hv

theorem pairwise_of_forall_mem {α : Type} {R : α → α → Prop} :
    ∀ l : List α, (∀ a ∈ l, ∀ b ∈ l, R a b) → l.Pairwise R := by
  intro l
  induction l with
  | nil => intro; exact List.Pairwise.nil
  | cons a t ih =>
    intro h
    refine List.Pairwise.cons ?_ (ih ?_)
    · intro b hb
      exact h a (by simp) b (by simp [hb])
    · intro x hx y hy
      exact h x (by simp [hx]) y (by simp [hy])

theorem toNat_ne_of_ne (d : Dungeon) (p q : Point) (hp : inExtent d p)
    (hq : inExtent d q) (hne : p ≠ q) :
    p.x.toNat ≠ q.x.toNat ∨ p.y.toNat ≠ q.y.toNat := by
  by_contra hcon
  push_neg at hcon
  exact hne (point_eq_of_toNat p q ⟨hp.1, hp.2.1⟩ ⟨hq.1, hq.2.1⟩ hcon.1 hcon.2)

theorem point_add_ne (base : Point) (a b : Point) (hne : a ≠ b) :
    (⟨base.x + a.x, base.y + a.y⟩ : Point) ≠ ⟨base.x + b.x, base.y + b.y⟩ := by
  intro hcon
  simp only [Point.mk.injEq] at hcon
  apply hne
  cases a with
  | mk ax ay =>
    cases b with
    | mk bx bz =>
      simp only at hcon
      simp only [Point.mk.injEq]
      omega

theorem bfsFold_spec (d : Dungeon) (cur : BfsNode) :
    ∀ (ds : List Point) (v : List (List Bool)) (ns : List BfsNode),
      VisWF d v → ds.Pairwise (fun a b => a ≠ b) →
      ∃ new : List BfsNode,
        (ds.foldl (bfsStep d cur) (v, ns)).2 = ns ++ new ∧
        VisWF d (ds.foldl (bfsStep d cur) (v, ns)).1 ∧
        falseCount (ds.foldl (bfsStep d cur) (v, ns)).1 + new.length = falseCount v ∧
        (∀ p : Point, inExtent d p →
          (visGet (ds.foldl (bfsStep d cur) (v, ns)).1 p = true ↔
            visGet v p = true ∨ ∃ n ∈ new, n.Pos = p)) ∧
        (∀ n ∈ new,
          (∃ dir ∈ ds, n.Pos = ⟨cur.Pos.x + dir.x, cur.Pos.y + dir.y⟩) ∧
          okStep d n.Pos ∧ visGet v n.Pos = false ∧
          n.Steps = cur.Steps + 1 ∧ n.Prev = cur.Pos :: cur.Prev) ∧
        (∀ dir ∈ ds, okStep d ⟨cur.Pos.x + dir.x, cur.Pos.y + dir.y⟩ →
          visGet v ⟨cur.Pos.x + dir.x, cur.Pos.y + dir.y⟩ = false →
          ∃ n ∈ new, n.Pos = (⟨cur.Pos.x + dir.x, cur.Pos.y + dir.y⟩ : Point)) := by
  intro ds
  induction ds with
  | nil =>
    intro v ns hwf _
    exact ⟨[], by simp, hwf, by simp, fun p _ => by simp, by simp, by simp⟩
  | cons dir1 ds ih =>
    intro v ns hwf hnd
    rw [List.pairwise_cons] at hnd
    obtain ⟨hhead, htail⟩ := hnd
    rw [List.foldl_cons]
    cases hs : bfsStep d cur (v, ns) dir1 with
    | mk v1 ns1 =>
      unfold bfsStep at hs
      simp only at hs
      split at hs
      · rename_i hg
        simp only [Bool.and_eq_true, decide_eq_true_eq, Bool.not_eq_true',
          bne_iff_ne] at hg
        obtain ⟨⟨⟨⟨⟨h1, h2⟩, h3⟩, h4⟩, h5⟩, h6⟩ := hg
        simp only [Prod.mk.injEq] at hs
        obtain ⟨hv1, hns1⟩ := hs
        subst hv1 hns1
        set q1 : Point := ⟨cur.Pos.x + dir1.x, cur.Pos.y + dir1.y⟩ with hq1def
        have hq1ext : inExtent d q1 := ⟨h1, h2, h3, h4⟩
        have hq1ok : okStep d q1 := ⟨hq1ext, h6⟩
        obtain ⟨new', e1, e2, e3, e4, e5, e6⟩ :=
          ih (visSet v q1) (ns ++ [⟨q1, cur.Steps + 1, cur.Pos :: cur.Prev⟩])
            (VisWF_visSet d v q1 hwf hq1ext) htail
        refine ⟨⟨q1, cur.Steps + 1, cur.Pos :: cur.Prev⟩ :: new', ?_, e2, ?_, ?_, ?_, ?_⟩
        · rw [e1, List.append_assoc]
          rfl
        · have hflip := falseCount_visSet d v q1 hwf hq1ext h5
          simp only [List.length_cons]
          omega
        · intro p hp
          rw [e4 p hp, List.exists_mem_cons_iff]
          constructor
          · rintro (hset | hnew)
            · by_cases hpq : p = q1
              · exact Or.inr (Or.inl hpq.symm)
              · left
                rw [visGet_visSet_ne v q1 p
                  (toNat_ne_of_ne d q1 p hq1ext hp (fun hc => hpq hc.symm))] at hset
                exact hset
            · exact Or.inr (Or.inr hnew)
          · rintro (hv | hq1p | ⟨n, hn, hpos⟩)
            · left
              by_cases hpq : p = q1
              · subst hpq
                exact visGet_visSet_self d v q1 hwf hp
              · rw [visGet_visSet_ne v q1 p
                  (toNat_ne_of_ne d q1 p hq1ext hp (fun hc => hpq hc.symm))]
                exact hv
            · left
              have hpq1 : p = q1 := hq1p.symm
              subst hpq1
              exact visGet_visSet_self d v q1 hwf hp
            · exact Or.inr ⟨n, hn, hpos⟩
        · intro n hn
          rcases List.mem_cons.mp hn with rfl | hn'
          · exact ⟨⟨dir1, by simp, rfl⟩, hq1ok, h5, rfl, rfl⟩
          · obtain ⟨⟨dir, hd, he⟩, hok, hunv, hst, hpv⟩ := e5 n hn'
            refine ⟨⟨dir, List.mem_cons_of_mem _ hd, he⟩, hok, ?_, hst, hpv⟩
            by_cases hnq : n.Pos = q1
            · rw [hnq, visGet_visSet_self d v q1 hwf hq1ext] at hunv
              exact absurd hunv (by simp)
            · rw [visGet_visSet_ne v q1 n.Pos
                (toNat_ne_of_ne d q1 n.Pos hq1ext hok.1 (fun hc => hnq hc.symm))] at hunv
              exact hunv
        · intro dir hdir hok hunvis
          rcases List.mem_cons.mp hdir with rfl | hd
          · exact ⟨⟨q1, cur.Steps + 1, cur.Pos :: cur.Prev⟩, by simp, rfl⟩
          · have hne : q1 ≠ (⟨cur.Pos.x + dir.x, cur.Pos.y + dir.y⟩ : Point) := by
              rw [hq1def]
              exact point_add_ne cur.Pos dir1 dir (hhead dir hd)
            have hstill : visGet (visSet v q1) ⟨cur.Pos.x + dir.x, cur.Pos.y + dir.y⟩
                = false := by
              rw [visGet_visSet_ne v q1 _ (toNat_ne_of_ne d q1 _ hq1ext hok.1 hne)]
              exact hunvis
            obtain ⟨n, hn, hp⟩ := e6 dir hd hok hstill
            exact ⟨n, List.mem_cons_of_mem _ hn, hp⟩
      · rename_i hg
        simp only [Bool.and_eq_true, decide_eq_true_eq, Bool.not_eq_true',
          bne_iff_ne] at hg
        simp only [Prod.mk.injEq] at hs
        obtain ⟨hv1, hns1⟩ := hs
        subst hv1 hns1
        obtain ⟨new', e1, e2, e3, e4, e5, e6⟩ := ih v ns hwf htail
        refine ⟨new', e1, e2, e3, e4, ?_, ?_⟩
        · intro n hn
          obtain ⟨⟨dir, hd, he⟩, hok, hunv, hst, hpv⟩ := e5 n hn
          exact ⟨⟨dir, List.mem_cons_of_mem _ hd, he⟩, hok, hunv, hst, hpv⟩
        · intro dir hdir hok hunvis
          rcases List.mem_cons.mp hdir with rfl | hd
          · obtain ⟨⟨o1, o2, o3, o4⟩, o5⟩ := hok
            exact absurd ⟨⟨⟨⟨⟨o1, o2⟩, o3⟩, o4⟩, hunvis⟩, o5⟩ hg
          · exact e6 dir hd hok hunvis

theorem point_ext (p : Point) (a b : Int) (hx : p.x = a) (hy : p.y = b) :
    p = ⟨a, b⟩ := by
  cases p
  simp only [Point.mk.injEq]
  exact ⟨hx, hy⟩

theorem getD_zero_of_head {α : Type} (dflt : α) (m : List α) (s : α)
    (h : m.head? = some s) : m.getD 0 dflt = s := by
  cases m with
  | nil => simp at h
  | cons a t => simpa using h

theorem getD_last_of_getLast {α : Type} (dflt : α) :
    ∀ (m : List α) (g : α), m.getLast? = some g → m.getD (m.length - 1) dflt = g := by
  intro m
  induction m with
  | nil => intro g hg; simp at hg
  | cons a t ih =>
    intro g hg
    cases t with
    | nil => simpa using hg
    | cons b t2 =>
      rw [List.getLast?_cons_cons] at hg
      simpa using ih g hg

theorem validPath_length_pos (d : Dungeon) (s g : Point) (m : List Point)
    (h : ValidPath d s g m) : 0 < m.length := by
  obtain ⟨h1, _, _, _⟩ := h
  cases m with
  | nil => simp at h1
  | cons a t => simp

theorem validPath_adj (d : Dungeon) (s g : Point) (m : List Point)
    (h : ValidPath d s g m) (i : Nat) (hi : i + 1 < m.length) :
    Adj (m.getD i ⟨0, 0⟩) (m.getD (i + 1) ⟨0, 0⟩) := by
  have hc := h.2.2.1
  rw [List.chain'_iff_get] at hc
  have hstep := hc i (by omega)
  rw [List.getD_eq_getElem _ _ (by omega), List.getD_eq_getElem _ _ hi]
  simpa using hstep

theorem validPath_okStep (d : Dungeon) (s g : Point) (m : List Point)
    (h : ValidPath d s g m) (i : Nat) (h1 : 1 ≤ i) (h2 : i < m.length) :
    okStep d (m.getD i ⟨0, 0⟩) := by
  refine h.2.2.2 _ ?_
  cases m with
  | nil => simp at h2
  | cons a t =>
    cases i with
    | zero => omega
    | succ k =>
      simp only [List.getD_cons_succ, List.tail_cons]
      exact getD_mem_of_lt t k (by simp only [List.length_cons] at h2; omega)

theorem NodeOK_extend (d : Dungeon) (start : Point) (cur : BfsNode) (q : Point)
    (hok : NodeOK d start cur) (hadj : Adj cur.Pos q) (hq : okStep d q) :
    NodeOK d start ⟨q, cur.Steps + 1, cur.Pos :: cur.Prev⟩ := by
  obtain ⟨hh, hl, hc, ht, hlen⟩ := hok
  have hpath : nodePath ⟨q, cur.Steps + 1, cur.Pos :: cur.Prev⟩ = nodePath cur ++ [q] := by
    unfold nodePath
    simp
  have hne : nodePath cur ≠ [] := by
    intro hc0
    rw [hc0] at hh
    simp at hh
  refine ⟨?_, ?_, ?_, ?_, ?_⟩
  · rw [hpath]
    cases hnp : nodePath cur with
    | nil => exact absurd hnp hne
    | cons a t =>
      rw [hnp] at hh
      simpa using hh
  · show (nodePath _).getLast? = some q
    rw [hpath, List.getLast?_concat]
  · rw [hpath, List.chain'_append]
    refine ⟨hc, List.chain'_singleton q, ?_⟩
    intro x hx y hy
    rw [hl] at hx
    simp only [Option.mem_def, Option.some.injEq] at hx
    simp only [List.head?_cons, Option.mem_def, Option.some.injEq] at hy
    subst hx hy
    exact hadj
  · rw [hpath]
    cases hnp : nodePath cur with
    | nil => exact absurd hnp hne
    | cons a t =>
      intro p hp
      simp only [List.cons_append, List.tail_cons] at hp
      rcases List.mem_append.mp hp with hmem | hmem
      · refine ht p ?_
        rw [hnp]
        simpa using hmem
      · rw [List.mem_singleton] at hmem
        subst hmem
        exact hq
  · show (nodePath _).length = cur.Steps + 1 + 1
    rw [hpath, List.length_append, hlen]
    simp

theorem bfsInv_step (d : Dungeon) (start goal : Point) (vis : List (List Bool))
    (cur : BfsNode) (rest : List BfsNode)
    (hinv : BfsInv d start goal vis (cur :: rest)) (hcur : cur.Pos ≠ goal) :
    BfsInv d start goal (bfsExpand d cur vis).1 (rest ++ (bfsExpand d cur vis).2) ∧
    falseCount (bfsExpand d cur vis).1 + (bfsExpand d cur vis).2.length =
      falseCount vis := by
  classical
  obtain ⟨hwf, hqok, hpw, hinvm⟩ := hinv
  rw [List.pairwise_cons] at hpw
  obtain ⟨hband, hpwrest⟩ := hpw
  obtain ⟨new, e1, e2, e3, e4, e5, e6⟩ := bfsFold_spec d cur dirs4 vis [] hwf (by decide)
  simp only [List.nil_append] at e1
  have hexp : bfsExpand d cur vis = dirs4.foldl (bfsStep d cur) (vis, []) := rfl
  rw [hexp, e1]
  refine ⟨⟨e2, ?_, ?_, ?_⟩, e3⟩
  · -- every queued node carries a valid route
    intro n hn
    rcases List.mem_append.mp hn with hmem | hmem
    · exact hqok n (List.mem_cons_of_mem _ hmem)
    · obtain ⟨⟨dir, hd, he⟩, hok, _, hst, hpv⟩ := e5 n hmem
      have hadj : Adj cur.Pos n.Pos := ⟨dir, hd, by rw [he], by rw [he]⟩
      cases n with
      | mk npos nsteps nprev =>
        simp only at hst hpv hok hadj ⊢
        subst hst hpv
        exact NodeOK_extend d start cur npos (hqok cur (by simp)) hadj hok
  · -- sortedness within a band of one
    rw [List.pairwise_append]
    refine ⟨hpwrest, ?_, ?_⟩
    · refine pairwise_of_forall_mem _ ?_
      intro a ha b hb
      rw [(e5 a ha).2.2.2.1, (e5 b hb).2.2.2.1]
      omega
    · intro a ha b hb
      have h1 := hband a ha
      rw [(e5 b hb).2.2.2.1]
      omega
  · -- the crossing invariant
    intro m hm
    obtain ⟨n, hn, j, hjL, hjpos, hjsteps, hsuffix⟩ := hinvm m hm
    have hLpos := validPath_length_pos d start goal m hm
    have hcs : cur.Steps ≤ n.Steps := by
      rcases List.mem_cons.mp hn with rfl | hnr
      · exact le_refl _
      · exact (hband n hnr).1
    by_cases hA : ∃ i, j < i ∧ i < m.length ∧ ∃ nn ∈ new, nn.Pos = m.getD i ⟨0, 0⟩
    · -- a newly enqueued node sits on the path: take the farthest one
      set Q : Nat → Prop :=
        fun i => j < i ∧ i < m.length ∧ ∃ nn ∈ new, nn.Pos = m.getD i ⟨0, 0⟩ with hQdef
      obtain ⟨i0, hi0⟩ := hA
      have hQj : Q (Nat.findGreatest Q m.length) :=
        Nat.findGreatest_spec (le_of_lt hi0.2.1) hi0
      obtain ⟨hjj, hjL2, nn, hnn, hnnpos⟩ := hQj
      refine ⟨nn, List.mem_append_right _ hnn, Nat.findGreatest Q m.length, hjL2,
        hnnpos.symm, ?_, ?_⟩
      · rw [(e5 nn hnn).2.2.2.1]
        omega
      · intro i hi hiL
        have hvisold : visGet vis (m.getD i ⟨0, 0⟩) = false :=
          hsuffix i (by omega) hiL
        have hnotnew : ¬ ∃ nn2 ∈ new, nn2.Pos = m.getD i ⟨0, 0⟩ := by
          intro hcon
          exact Nat.findGreatest_is_greatest hi (le_of_lt hiL)
            (⟨by omega, hiL, hcon⟩ : Q i)
        have hext : inExtent d (m.getD i ⟨0, 0⟩) :=
          (validPath_okStep d start goal m hm i (by omega) hiL).1
        cases hval : visGet (dirs4.foldl (bfsStep d cur) (vis, [])).1 (m.getD i ⟨0, 0⟩) with
        | false => rfl
        | true =>
          rcases (e4 _ hext).mp hval with hold | hnew2
          · rw [hvisold] at hold
            exact absurd hold (by simp)
          · exact absurd hnew2 hnotnew
    · -- no new node on the path: the old witness survives, unless it was the head
      have hkeep : ∀ i, j < i → i < m.length →
          visGet (dirs4.foldl (bfsStep d cur) (vis, [])).1 (m.getD i ⟨0, 0⟩) = false := by
        intro i hi hiL
        have hvisold : visGet vis (m.getD i ⟨0, 0⟩) = false := hsuffix i hi hiL
        have hext : inExtent d (m.getD i ⟨0, 0⟩) :=
          (validPath_okStep d start goal m hm i (by omega) hiL).1
        cases hval : visGet (dirs4.foldl (bfsStep d cur) (vis, [])).1 (m.getD i ⟨0, 0⟩) with
        | false => rfl
        | true =>
          rcases (e4 _ hext).mp hval with hold | hnew2
          · rw [hvisold] at hold
            exact absurd hold (by simp)
          · exact absurd ⟨i, hi, hiL, hnew2⟩ hA
      rcases List.mem_cons.mp hn with rfl | hnr
      · -- the witness was the dequeued head: its successor on the path is enqueued
        exfalso
        have hjne : j ≠ m.length - 1 := by
          intro hje
          apply hcur
          rw [← hjpos, hje]
          exact getD_last_of_getLast _ m goal hm.2.1
        have hj1L : j + 1 < m.length := by omega
        have hadj : Adj (m.getD j ⟨0, 0⟩) (m.getD (j + 1) ⟨0, 0⟩) :=
          validPath_adj d start goal m hm j hj1L
        rw [hjpos] at hadj
        obtain ⟨dir, hd, hx, hy⟩ := hadj
        have hpt : m.getD (j + 1) ⟨0, 0⟩ = (⟨n.Pos.x + dir.x, n.Pos.y + dir.y⟩ : Point) :=
          point_ext _ _ _ hx hy
        have hok1 : okStep d (⟨n.Pos.x + dir.x, n.Pos.y + dir.y⟩ : Point) := by
          rw [← hpt]
          exact validPath_okStep d start goal m hm (j + 1) (by omega) hj1L
        have hunv1 : visGet vis (⟨n.Pos.x + dir.x, n.Pos.y + dir.y⟩ : Point) = false := by
          rw [← hpt]
          exact hsuffix (j + 1) (by omega) hj1L
        obtain ⟨nn, hnn, hnnpos⟩ := e6 dir hd hok1 hunv1
        exact hA ⟨j + 1, by omega, hj1L, nn, hnn, by rw [hpt]; exact hnnpos⟩
      · exact ⟨n, List.mem_append_left _ hnr, j, hjL, hjpos, hjsteps, hkeep⟩

theorem bfsLoop_some_spec (d : Dungeon) (start goal : Point) :
    ∀ (fuel : Nat) (vis : List (List Bool)) (queue : List BfsNode) (node : BfsNode),
      BfsInv d start goal vis queue →
      bfsLoop d goal fuel vis queue = some node →
      node.Pos = goal ∧ NodeOK d start node ∧
        ∀ m, ValidPath d start goal m → node.Steps + 1 ≤ m.length := by
  intro fuel
  induction fuel with
  | zero =>
    intro vis queue node _ h
    exact absurd h (by simp [bfsLoop])
  | succ fuel ih =>
    intro vis queue node hinv h
    cases queue with
    | nil => exact absurd h (by simp [bfsLoop])
    | cons cur rest =>
      rw [bfsLoop] at h
      simp only at h
      split at h
      · rename_i hgoal
        have hnode : node = cur := by simpa using h.symm
        subst hnode
        refine ⟨hgoal, hinv.2.1 node (by simp), ?_⟩
        intro m hm
        obtain ⟨n, hn, j, hjL, _, hjsteps, _⟩ := hinv.2.2.2 m hm
        have hcs : node.Steps ≤ n.Steps := by
          rcases List.mem_cons.mp hn with rfl | hnr
          · exact le_refl _
          · exact ((List.pairwise_cons.mp hinv.2.2.1).1 n hnr).1
        omega
      · rename_i hgoal
        obtain ⟨hinv', _⟩ := bfsInv_step d start goal vis cur rest hinv hgoal
        exact ih _ _ node hinv' h

theorem bfsLoop_none_spec (d : Dungeon) (start goal : Point) :
    ∀ (fuel : Nat) (vis : List (List Bool)) (queue : List BfsNode),
      BfsInv d start goal vis queue →
      2 * falseCount vis + queue.length < fuel →
      bfsLoop d goal fuel vis queue = none →
      ∀ m, ¬ ValidPath d start goal m := by
  intro fuel
  induction fuel with
  | zero =>
    intro vis queue _ hmeas _ m hm
    omega
  | succ fuel ih =>
    intro vis queue hinv hmeas h m hm
    cases queue with
    | nil =>
      obtain ⟨n, hn, _⟩ := hinv.2.2.2 m hm
      simp at hn
    | cons cur rest =>
      rw [bfsLoop] at h
      simp only at h
      split at h
      · simp at h
      · rename_i hgoal
        obtain ⟨hinv', hfc⟩ := bfsInv_step d start goal vis cur rest hinv hgoal
        refine ih _ _ hinv' ?_ h m hm
        simp only [List.length_append, List.length_cons] at hmeas ⊢
        omega

theorem countP_replicate_false :
    ∀ n : Nat, (List.replicate n false).countP (fun b => ! b) = n := by
  intro n
  induction n with
  | zero => rfl
  | succ k ih =>
    rw [List.replicate_succ, List.countP_cons]
    simp [ih]

theorem falseCount_mkVisited (w h : Int) :
    falseCount (mkVisited w h) = h.toNat * w.toNat := by
  unfold falseCount mkVisited
  rw [List.map_replicate, countP_replicate_false, List.sum_replicate, smul_eq_mul]

theorem findPath_init_inv (d : Dungeon) (start goal : Point) :
    BfsInv d start goal (mkVisited d.Width d.Height) [⟨start, 0, []⟩] := by
  refine ⟨VisWF_mkVisited d, ?_, by simp, ?_⟩
  · intro n hn
    simp only [List.mem_singleton] at hn
    subst hn
    refine ⟨?_, ?_, ?_, ?_, ?_⟩ <;> simp [nodePath]
  · intro m hm
    refine ⟨⟨start, 0, []⟩, by simp, 0, validPath_length_pos d start goal m hm,
      ?_, le_refl 0, ?_⟩
    · exact getD_zero_of_head _ m start hm.1
    · intro i _ _
      exact visGet_mkVisited _ _ _

theorem findPath_some_valid (d : Dungeon) (start goal : Point) (l : List Point)
    (h : d.FindPath start goal = some l) :
    ValidPath d start goal l ∧ ∀ m, ValidPath d start goal m → l.length ≤ m.length := by
  unfold Dungeon.FindPath at h
  simp only at h
  cases hloop : bfsLoop d goal (2 * (d.Width.toNat * d.Height.toNat) + 2)
      (mkVisited d.Width d.Height) [⟨start, 0, []⟩] with
  | none =>
    rw [hloop] at h
    exact absurd h (by simp)
  | some node =>
    rw [hloop] at h
    simp only [Option.some.injEq] at h
    subst h
    obtain ⟨hpos, ⟨hh, hl, hc, ht, hlen⟩, hmin⟩ :=
      bfsLoop_some_spec d start goal _ _ _ node (findPath_init_inv d start goal) hloop
    have hnp : (node.Pos :: node.Prev).reverse = nodePath node := rfl
    rw [hnp]
    refine ⟨⟨hh, by rw [hl, hpos], hc, ht⟩, ?_⟩
    intro m hm
    rw [hlen]
    exact hmin m hm

theorem findPath_none_no_path (d : Dungeon) (start goal : Point)
    (h : d.FindPath start goal = none) : ∀ m, ¬ ValidPath d start goal m := by
  unfold Dungeon.FindPath at h
  simp only at h
  cases hloop : bfsLoop d goal (2 * (d.Width.toNat * d.Height.toNat) + 2)
      (mkVisited d.Width d.Height) [⟨start, 0, []⟩] with
  | some node =>
    rw [hloop] at h
    simp at h
  | none =>
    refine bfsLoop_none_spec d start goal _ _ _ (findPath_init_inv d start goal) ?_ hloop
    have hfc := falseCount_mkVisited d.Width d.Height
    have hcomm : d.Height.toNat * d.Width.toNat = d.Width.toNat * d.Height.toNat :=
      Nat.mul_comm _ _
    simp only [List.length_cons, List.length_nil]
    omega

/-! Connectivity toolkit for the generated maze. -/

/-- One walkable step: adjacent points, both in extent and non-wall. -/
def StepOK (d : Dungeon) (p q : Point) : Prop :=
  Adj p q ∧ okStep d p ∧ okStep d q

/-- Reachability over walkable steps. -/
def Conn (d : Dungeon) (p q : Point) : Prop :=
  Relation.ReflTransGen (StepOK d) p q

/-- Every in-extent non-wall cell is reachable from the carve origin (1,1). -/
def ConnStart (d : Dungeon) : Prop :=
  ∀ p : Point, inExtent d p → (d.getCell p).typ ≠ .Wall → Conn d ⟨1, 1⟩ p

theorem inExtent_iff_inBounds (d : Dungeon) (p : Point) :
    inExtent d p ↔ inBounds p.x p.y d.Width d.Height = true := by
  unfold inExtent inBounds
  simp only [Bool.and_eq_true, decide_eq_true_eq]
  tauto

theorem adj_symm (p q : Point) (h : Adj p q) : Adj q p := by
  obtain ⟨dir, hd, hx, hy⟩ := h
  simp only [dirs4, List.mem_cons, List.not_mem_nil, or_false] at hd
  rcases hd with rfl | rfl | rfl | rfl
  · exact ⟨⟨0, 1⟩, by simp [dirs4], by dsimp only at hx ⊢; omega,
      by dsimp only at hy ⊢; omega⟩
  · exact ⟨⟨-1, 0⟩, by simp [dirs4], by dsimp only at hx ⊢; omega,
      by dsimp only at hy ⊢; omega⟩
  · exact ⟨⟨0, -1⟩, by simp [dirs4], by dsimp only at hx ⊢; omega,
      by dsimp only at hy ⊢; omega⟩
  · exact ⟨⟨1, 0⟩, by simp [dirs4], by dsimp only at hx ⊢; omega,
      by dsimp only at hy ⊢; omega⟩

theorem conn_trans (d : Dungeon) (p q r : Point) (h1 : Conn d p q) (h2 : Conn d q r) :
    Conn d p r :=
  Relation.ReflTransGen.trans h1 h2

theorem conn_symm (d : Dungeon) (p q : Point) (h : Conn d p q) : Conn d q p := by
  refine Relation.ReflTransGen.symmetric ?_ h
  intro a b hab
  exact ⟨adj_symm a b hab.1, hab.2.2, hab.2.1⟩

theorem conn_mono (d d' : Dungeon) (hok : ∀ r, okStep d r → okStep d' r)
    (p q : Point) (h : Conn d p q) : Conn d' p q :=
  Relation.ReflTransGen.mono (fun a b hab => ⟨hab.1, hok a hab.2.1, hok b hab.2.2⟩) h

theorem validPath_extend (d : Dungeon) (s b c : Point) (m : List Point)
    (hm : ValidPath d s b m) (hadj : Adj b c) (hc : okStep d c) :
    ValidPath d s c (m ++ [c]) := by
  obtain ⟨h1, h2, h3, h4⟩ := hm
  have hne : m ≠ [] := by
    intro h0
    rw [h0] at h1
    simp at h1
  refine ⟨?_, ?_, ?_, ?_⟩
  · cases hm0 : m with
    | nil => exact absurd hm0 hne
    | cons a t =>
      rw [hm0] at h1
      simpa using h1
  · rw [List.getLast?_concat]
  · rw [List.chain'_append]
    refine ⟨h3, List.chain'_singleton c, ?_⟩
    intro x hx y hy
    rw [h2] at hx
    simp only [Option.mem_def, Option.some.injEq] at hx
    simp only [List.head?_cons, Option.mem_def, Option.some.injEq] at hy
    subst hx hy
    exact hadj
  · cases hm0 : m with
    | nil => exact absurd hm0 hne
    | cons a t =>
      subst hm0
      intro r hr
      simp only [List.cons_append, List.tail_cons] at hr
      rcases List.mem_append.mp hr with hmem | hmem
      · exact h4 r (by simpa using hmem)
      · rw [List.mem_singleton] at hmem
        subst hmem
        exact hc

theorem conn_to_path (d : Dungeon) (p q : Point) (hconn : Conn d p q) :
    ∃ m, ValidPath d p q m := by
  induction hconn with
  | refl => exact ⟨[p], by simp [ValidPath]⟩
  | tail hab hbc ih =>
    obtain ⟨m, hm⟩ := ih
    exact ⟨m ++ [_], validPath_extend d p _ _ m hm hbc.1 hbc.2.2⟩

theorem setCellEmpty_Width (d : Dungeon) (p : Point) :
    (d.setCellEmpty p).Width = d.Width := by
  unfold Dungeon.setCellEmpty
  rw [modifyCell_Width]

theorem setCellEmpty_Height (d : Dungeon) (p : Point) :
    (d.setCellEmpty p).Height = d.Height := by
  unfold Dungeon.setCellEmpty
  rw [modifyCell_Height]

theorem setCellEmpty_WF (d : Dungeon) (p : Point) (h : d.WF) : (d.setCellEmpty p).WF := by
  unfold Dungeon.setCellEmpty
  exact modifyCell_WF _ _ _ h

theorem getCell_setCellEmpty_self (d : Dungeon) (p : Point) (hwf : d.WF)
    (hin : inBounds p.x p.y d.Width d.Height = true) :
    ((d.setCellEmpty p).getCell p).typ = .Empty := by
  unfold Dungeon.setCellEmpty Dungeon.modifyCell
  rw [getCell_setCell_self _ _ _ hwf hin]

theorem getCell_setCellEmpty_ne (d : Dungeon) (p q : Point) (hne : q ≠ p) :
    (d.setCellEmpty p).getCell q = d.getCell q := by
  unfold Dungeon.setCellEmpty Dungeon.modifyCell
  exact getCell_setCell_ne _ _ _ _ hne

theorem inExtent_carvePath (d : Dungeon) (w n r : Point) :
    inExtent (d.carvePath w n) r ↔ inExtent d r := by
  unfold inExtent
  rw [carvePath_Width, carvePath_Height]

theorem carvePath_typ_mid (d : Dungeon) (w n : Point) (hwf : d.WF)
    (hmidin : inBounds (Int.tdiv (w.x + n.x) 2) (Int.tdiv (w.y + n.y) 2)
      d.Width d.Height = true) :
    ((d.carvePath w n).getCell
      ⟨Int.tdiv (w.x + n.x) 2, Int.tdiv (w.y + n.y) 2⟩).typ = .Empty := by
  show (((d.setCellEmpty w).setCellEmpty
    ⟨Int.tdiv (w.x + n.x) 2, Int.tdiv (w.y + n.y) 2⟩).getCell _).typ = .Empty
  refine getCell_setCellEmpty_self _ _ (setCellEmpty_WF d w hwf) ?_
  rw [setCellEmpty_Width, setCellEmpty_Height]
  exact hmidin

theorem carvePath_typ_wall (d : Dungeon) (w n : Point) (hwf : d.WF)
    (hwin : inBounds w.x w.y d.Width d.Height = true) :
    ((d.carvePath w n).getCell w).typ = .Empty := by
  show (((d.setCellEmpty w).setCellEmpty
    ⟨Int.tdiv (w.x + n.x) 2, Int.tdiv (w.y + n.y) 2⟩).getCell w).typ = .Empty
  by_cases hwm : w = (⟨Int.tdiv (w.x + n.x) 2, Int.tdiv (w.y + n.y) 2⟩ : Point)
  · rw [← hwm]
    refine getCell_setCellEmpty_self _ _ (setCellEmpty_WF d w hwf) ?_
    rw [setCellEmpty_Width, setCellEmpty_Height]
    exact hwin
  · rw [getCell_setCellEmpty_ne _ _ _ hwm]
    exact getCell_setCellEmpty_self d w hwf hwin

theorem okStep_carvePath (d : Dungeon) (w n r : Point) (hwf : d.WF)
    (hwin : inBounds w.x w.y d.Width d.Height = true)
    (hok : okStep d r) : okStep (d.carvePath w n) r := by
  obtain ⟨hext, hnw⟩ := hok
  refine ⟨(inExtent_carvePath d w n r).mpr hext, ?_⟩
  by_cases h1 : r = w
  · subst h1
    rw [carvePath_typ_wall d r n hwf hwin]
    simp
  · by_cases h2 : r = (⟨Int.tdiv (w.x + n.x) 2, Int.tdiv (w.y + n.y) 2⟩ : Point)
    · subst h2
      rw [carvePath_typ_mid d w n hwf
        ((inExtent_iff_inBounds d _).mp hext)]
      simp
    · rw [getCell_carvePath_ne d w n r h1 h2]
      exact hnw

theorem connStart_carve (d : Dungeon) (w n : Point) (hwf : d.WF)
    (hwext : inExtent d w) (hn : n ∈ d.getEmptyNeighbors w) (hcs : ConnStart d) :
    ConnStart (d.carvePath w n) := by
  obtain ⟨hnin, hnEmpty, dir, hdirmem, hneq⟩ := mem_getEmptyNeighbors d w n hn
  have hwin : inBounds w.x w.y d.Width d.Height = true :=
    (inExtent_iff_inBounds d w).mp hwext
  have hnext : inExtent d n := (inExtent_iff_inBounds d n).mpr hnin
  have hkey : Adj n ⟨Int.tdiv (w.x + n.x) 2, Int.tdiv (w.y + n.y) 2⟩ ∧
      Adj (⟨Int.tdiv (w.x + n.x) 2, Int.tdiv (w.y + n.y) 2⟩ : Point) w ∧
      inExtent d ⟨Int.tdiv (w.x + n.x) 2, Int.tdiv (w.y + n.y) 2⟩ := by
    obtain ⟨hwx0, hwy0, hwxw, hwyh⟩ := hwext
    obtain ⟨hnx0, hny0, hnxw, hnyh⟩ := hnext
    subst hneq
    simp only [mazeDirs, List.mem_cons, List.not_mem_nil, or_false] at hdirmem
    rcases hdirmem with rfl | rfl | rfl | rfl
    · dsimp only at hnx0 hny0 hnxw hnyh ⊢
      rw [show w.x + (w.x + (-2)) = 2 * (w.x - 1) by ring,
        show w.y + (w.y + 0) = 2 * w.y by ring, tdiv_two_exact, tdiv_two_exact]
      exact ⟨⟨⟨1, 0⟩, by simp [dirs4], by dsimp only; omega, by dsimp only; omega⟩,
        ⟨⟨1, 0⟩, by simp [dirs4], by dsimp only; omega, by dsimp only; omega⟩,
        by dsimp only; omega, by dsimp only; omega, by dsimp only; omega,
        by dsimp only; omega⟩
    · dsimp only at hnx0 hny0 hnxw hnyh ⊢
      rw [show w.x + (w.x + 2) = 2 * (w.x + 1) by ring,
        show w.y + (w.y + 0) = 2 * w.y by ring, tdiv_two_exact, tdiv_two_exact]
      exact ⟨⟨⟨-1, 0⟩, by simp [dirs4], by dsimp only; omega, by dsimp only; omega⟩,
        ⟨⟨-1, 0⟩, by simp [dirs4], by dsimp only; omega, by dsimp only; omega⟩,
        by dsimp only; omega, by dsimp only; omega, by dsimp only; omega,
        by dsimp only; omega⟩
    · dsimp only at hnx0 hny0 hnxw hnyh ⊢
      rw [show w.x + (w.x + 0) = 2 * w.x by ring,
        show w.y + (w.y + (-2)) = 2 * (w.y - 1) by ring, tdiv_two_exact, tdiv_two_exact]
      exact ⟨⟨⟨0, 1⟩, by simp [dirs4], by dsimp only; omega, by dsimp only; omega⟩,
        ⟨⟨0, 1⟩, by simp [dirs4], by dsimp only; omega, by dsimp only; omega⟩,
        by dsimp only; omega, by dsimp only; omega, by dsimp only; omega,
        by dsimp only; omega⟩
    · dsimp only at hnx0 hny0 hnxw hnyh ⊢
      rw [show w.x + (w.x + 0) = 2 * w.x by ring,
        show w.y + (w.y + 2) = 2 * (w.y + 1) by ring, tdiv_two_exact, tdiv_two_exact]
      exact ⟨⟨⟨0, -1⟩, by simp [dirs4], by dsimp only; omega, by dsimp only; omega⟩,
        ⟨⟨0, -1⟩, by simp [dirs4], by dsimp only; omega, by dsimp only; omega⟩,
        by dsimp only; omega, by dsimp only; omega, by dsimp only; omega,
        by dsimp only; omega⟩
  obtain ⟨hadj1, hadj2, hmidext⟩ := hkey
  have hokmono : ∀ r, okStep d r → okStep (d.carvePath w n) r :=
    fun r hr => okStep_carvePath d w n r hwf hwin hr
  have hokn : okStep (d.carvePath w n) n :=
    hokmono n ⟨hnext, by rw [hnEmpty]; simp⟩
  have hokmid : okStep (d.carvePath w n) ⟨Int.tdiv (w.x + n.x) 2, Int.tdiv (w.y + n.y) 2⟩ := by
    refine ⟨(inExtent_carvePath d w n _).mpr hmidext, ?_⟩
    rw [carvePath_typ_mid d w n hwf ((inExtent_iff_inBounds d _).mp hmidext)]
    simp
  have hokw : okStep (d.carvePath w n) w := by
    refine ⟨(inExtent_carvePath d w n _).mpr hwext, ?_⟩
    rw [carvePath_typ_wall d w n hwf hwin]
    simp
  have hconn_n : Conn (d.carvePath w n) ⟨1, 1⟩ n :=
    conn_mono d _ hokmono _ _ (hcs n hnext (by rw [hnEmpty]; simp))
  have hconn_mid : Conn (d.carvePath w n) ⟨1, 1⟩
      ⟨Int.tdiv (w.x + n.x) 2, Int.tdiv (w.y + n.y) 2⟩ :=
    Relation.ReflTransGen.tail hconn_n ⟨hadj1, hokn, hokmid⟩
  have hconn_w : Conn (d.carvePath w n) ⟨1, 1⟩ w :=
    Relation.ReflTransGen.tail hconn_mid ⟨hadj2, hokmid, hokw⟩
  intro p hpext hpnw
  have hpext' : inExtent d p := (inExtent_carvePath d w n p).mp hpext
  by_cases hpw : p = w
  · subst hpw
    exact hconn_w
  · by_cases hpm : p = (⟨Int.tdiv (w.x + n.x) 2, Int.tdiv (w.y + n.y) 2⟩ : Point)
    · subst hpm
      exact hconn_mid
    · rw [getCell_carvePath_ne d w n p hpw hpm] at hpnw
      exact conn_mono d _ hokmono _ _ (hcs p hpext' hpnw)

theorem primLoop_connStart :
    ∀ (fuel : Nat) (d : Dungeon) (rng : Rng) (walls : List Point),
      d.WF → (∀ q ∈ walls, inExtent d q) → ConnStart d →
      ConnStart (primLoop d rng walls fuel).1 := by
  intro fuel
  induction fuel with
  | zero => intro d rng walls _ _ hcs; exact hcs
  | succ fuel ih =>
    intro d rng walls hwf hwalls hcs
    cases walls with
    | nil => exact hcs
    | cons w0 ws =>
      rw [primLoop]
      simp only
      split
      · exact ih _ _ _ hwf
          (fun q hq => hwalls q (List.mem_of_mem_eraseIdx hq)) hcs
      · split
        · rename_i hpos
          have hwallmem : (w0 :: ws).getD ((rng.intn (w0 :: ws).length).1) ⟨0, 0⟩
              ∈ w0 :: ws :=
            getD_mem_of_lt _ _ (intn_fst_lt _ _ (by simp))
          have hwallext := hwalls _ hwallmem
          have hnbmem := getD_mem_of_lt _ _ (intn_fst_lt _ _ (by omega) :
            ((rng.intn (w0 :: ws).length).2.intn
              (d.getEmptyNeighbors
                ((w0 :: ws).getD ((rng.intn (w0 :: ws).length).1) ⟨0, 0⟩)).length).1 <
            (d.getEmptyNeighbors
              ((w0 :: ws).getD ((rng.intn (w0 :: ws).length).1) ⟨0, 0⟩)).length)
          refine ih _ _ _ (carvePath_WF _ _ _ hwf) ?_
            (connStart_carve d _ _ hwf hwallext hnbmem hcs)
          intro q hq
          rcases mem_addAdjacentWalls _ _ _ _ hq with hmem | ⟨hin, _, _⟩
          · exact (inExtent_carvePath _ _ _ _).mpr
              (hwalls q (List.mem_of_mem_eraseIdx hmem))
          · exact (inExtent_iff_inBounds _ _).mpr hin
        · exact ih _ _ _ hwf
            (fun q hq => hwalls q (List.mem_of_mem_eraseIdx hq)) hcs

theorem mazeStage_conn (w h level : Int) (rng : Rng) :
    ConnStart (mazeStage w h level rng).1 := by
  unfold mazeStage Dungeon.generateMaze
  set d0 : Dungeon :=
    { Cells := List.replicate h.toNat (List.replicate w.toNat wallCell),
      Width := w, Height := h, Entrance := ⟨0, 0⟩, Exit := ⟨0, 0⟩,
      Visited := List.replicate h.toNat (List.replicate w.toNat false),
      Level := level } with hd0
  have hwf0 : d0.WF := by
    constructor
    · simp [hd0]
    · intro row hrow
      rw [hd0] at hrow
      simp only [List.mem_replicate] at hrow
      rw [hrow.2]
      simp
  have hwf1 : ((d0.fillWithWalls).setCellEmpty ⟨1, 1⟩).WF :=
    setCellEmpty_WF _ _ (fillWithWalls_WF _ hwf0)
  refine primLoop_connStart _ _ _ _ hwf1 ?_ ?_
  · intro q hq
    exact (inExtent_iff_inBounds _ _).mpr (mem_getInitialWalls _ _ _ hq).1
  · intro p hpext hpnw
    by_cases hp1 : p = ⟨1, 1⟩
    · subst hp1
      exact Relation.ReflTransGen.refl
    · exfalso
      rw [getCell_setCellEmpty_ne _ _ _ hp1] at hpnw
      refine hpnw (getCell_fillWithWalls d0 p hwf0 ?_)
      refine (inExtent_iff_inBounds _ _).mp ?_
      obtain ⟨a, b, c, e⟩ := hpext
      rw [setCellEmpty_Width] at c
      rw [setCellEmpty_Height] at e
      exact ⟨a, b, c, e⟩

/-- A 3×3 grid of solid wall. -/
def dAllWall : Dungeon :=
  { Cells := List.replicate 3 (List.replicate 3 wallCell),
    Width := 3, Height := 3, Entrance := ⟨1, 1⟩, Exit := ⟨1, 1⟩,
    Visited := [], Level := 1 }

/-- A small concrete grid: an open 3-cell corridor on row 1. -/
def dSmall : Dungeon :=
  { Cells := [List.replicate 5 wallCell,
      [wallCell, zeroCell, zeroCell, zeroCell, wallCell],
      List.replicate 5 wallCell],
    Width := 5, Height := 3, Entrance := ⟨1, 1⟩, Exit := ⟨3, 1⟩,
    Visited := [], Level := 1 }

/-- The route `FindPath` reports across the corridor of `dSmall`. -/
def pathS : List Point := (dSmall.FindPath ⟨1, 1⟩ ⟨3, 1⟩).getD []

/-- C2 (counterexample): on an all-wall grid, `FindPath` between the in-bounds
wall cell (1,1) and itself returns the one-point path [(1,1)] whose only cell
is a `Wall`: the claimed "every cell on the path is non-wall" fails, because
the start cell is enqueued without any check. -/
theorem findPath_claim_false :
    dAllWall.FindPath ⟨1, 1⟩ ⟨1, 1⟩ = some [⟨1, 1⟩] ∧
    inBounds 1 1 dAllWall.Width dAllWall.Height = true ∧
    (dAllWall.getCell ⟨1, 1⟩).typ = .Wall :=
  ⟨rfl, rfl, rfl⟩

/-- C2 (amended): whenever `FindPath start goal` returns a path, that path
begins at `start`, ends at `goal`, has 4-adjacent consecutive points, every
point after the first is in bounds and non-wall (the start cell itself is never
checked), and its length is minimal among all such paths; when it returns the
absent result, no such path exists. -/
theorem findPath_correct (d : Dungeon) (start goal : Point) :
    (∀ l, d.FindPath start goal = some l →
      ValidPath d start goal l ∧
        ∀ m, ValidPath d start goal m → l.length ≤ m.length) ∧
    (d.FindPath start goal = none → ∀ m, ¬ ValidPath d start goal m) :=
  ⟨fun l hl => findPath_some_valid d start goal l hl,
   fun hn => findPath_none_no_path d start goal hn⟩

/-- C2 witness: the correctness theorem applied to the concrete corridor grid;
the reported route is a valid shortest path and has the expected three cells. -/
theorem findPath_correct_witness :
    ValidPath dSmall ⟨1, 1⟩ ⟨3, 1⟩ pathS ∧ pathS.length = 3 :=
  ⟨((findPath_correct dSmall ⟨1, 1⟩ ⟨3, 1⟩).1 pathS rfl).1, rfl⟩

/-- C1: in every grid produced by `NewDungeon`, every in-bounds cell whose
category is `Empty`, `Entrance` or `Exit` is reachable from the entrance:
`FindPath` between the entrance and any such cell never returns the absent
result. Randomized Prim keeps every carved cell connected to the carve origin
(1,1), the entrance and the exit are placed on carved cells, and feature
placement never turns a non-wall cell into a wall. -/
theorem newDungeon_connected (w h level : Int) (rng : Rng) (tryFuel : Nat)
    (d : Dungeon) (hw : 3 ≤ w) (hh : 3 ≤ h)
    (hrun : NewDungeon w h level rng tryFuel = some d)
    (p : Point) (hin : inBounds p.x p.y w h = true)
    (hty : (d.getCell p).typ = .Empty ∨ (d.getCell p).typ = .Entrance ∨
      (d.getCell p).typ = .Exit) :
    d.FindPath d.Entrance p ≠ none := by
  obtain ⟨d5, rng5, hexit, hwf, hW, hH, hEnt, hExit, _, _, hWall5⟩ :=
    NewDungeon_spec w h level rng tryFuel d hw hh hrun
  obtain ⟨d3, rng3, hent, hwf5, hW5, hH5, hEnt5, _, _, _, _, _, hty5, _, hEmpty3,
      hrevert, _, _⟩ :=
    exitStage_spec w h level rng tryFuel d5 rng5 hw hh hexit
  obtain ⟨hwf3, hW3, hH3, hex1, hex2, hey1, hey2, hcell3, hpoint3, hmazeE, _⟩ :=
    entranceStage_spec w h level rng tryFuel d3 rng3 hw hh hent
  obtain ⟨hwfm, hWm, hHm⟩ := mazeStage_basic w h level rng
  set dm := (mazeStage w h level rng).1 with hdm
  have hWall53 : ∀ r : Point, (d5.getCell r).typ = .Wall ↔ (d3.getCell r).typ = .Wall := by
    intro r
    by_cases hr : r = d5.Exit
    · subst hr
      simp [hty5, hEmpty3]
    · rw [hrevert r hr]
  have hWall3m : ∀ r : Point, (d3.getCell r).typ = .Wall ↔ (dm.getCell r).typ = .Wall := by
    intro r
    by_cases hr : r = d3.Entrance
    · subst hr
      simp [hcell3, hmazeE]
    · rw [hpoint3 r hr]
  have hWallall : ∀ r : Point, ((d.getCell r).typ = .Wall ↔ (dm.getCell r).typ = .Wall) :=
    fun r => ((hWall5 r).trans (hWall53 r)).trans (hWall3m r)
  have hokmd : ∀ r, okStep dm r → okStep d r := by
    intro r hr
    obtain ⟨⟨a, b, c, e⟩, hnw⟩ := hr
    refine ⟨⟨a, b, ?_, ?_⟩, ?_⟩
    · rw [hW]
      rw [hWm] at c
      exact c
    · rw [hH]
      rw [hHm] at e
      exact e
    · intro hc
      exact hnw ((hWallall r).mp hc)
  have hentpt : d.Entrance = d3.Entrance := by rw [hEnt, hEnt5]
  have hentext_m : inExtent dm d3.Entrance := by
    refine ⟨by omega, by omega, ?_, ?_⟩
    · rw [hWm]
      omega
    · rw [hHm]
      omega
  have hentnw_m : (dm.getCell d3.Entrance).typ ≠ .Wall := by
    rw [hmazeE]
    simp
  have hpext_m : inExtent dm p := by
    simp only [inBounds, Bool.and_eq_true, decide_eq_true_eq] at hin
    obtain ⟨⟨⟨a, b⟩, c⟩, e⟩ := hin
    refine ⟨a, c, ?_, ?_⟩
    · rw [hWm]
      exact b
    · rw [hHm]
      exact e
  have hpnw_m : (dm.getCell p).typ ≠ .Wall := by
    intro hc
    have hdwall := (hWallall p).mpr hc
    rcases hty with h1 | h1 | h1 <;> rw [h1] at hdwall <;> cases hdwall
  have hcsm : ConnStart dm := mazeStage_conn w h level rng
  have hconn : Conn dm d3.Entrance p :=
    conn_trans dm _ _ _ (conn_symm dm _ _ (hcsm _ hentext_m hentnw_m))
      (hcsm p hpext_m hpnw_m)
  obtain ⟨m, hm⟩ := conn_to_path d d3.Entrance p (conn_mono dm d hokmd _ _ hconn)
  intro hnone
  exact findPath_none_no_path d d.Entrance p hnone m (by rw [hentpt]; exact hm)

/-- Pseudo-random stream driving the maze stage of the concrete runs below. -/
def lcg (i : Nat) : Nat := (i * 1103515245 + 12345) / 65536 % 32768

/-- Draws consumed after the maze stage of the 9×9 run: entrance at (1,1), then
ten monsters and ten treasures on predetermined empty cells of that maze, each
placement accepted on its first attempt. -/
def tableW : List Nat :=
  [0, 0, 1, 0, 0, 2, 0, 0, 3, 0, 0, 4, 0, 0, 5, 0, 0, 6, 0, 0, 0, 1, 0, 2, 1,
   0, 4, 1, 0, 0, 2, 0, 2, 2, 0, 0, 4, 2, 0, 0, 5, 2, 0, 0, 6, 2, 0, 0, 0, 3,
   0, 0, 6, 3, 0, 0, 0, 4, 0, 0, 1, 4, 0, 0, 2, 4, 0, 0, 4, 4, 0, 0]

/-- Draws consumed after the maze stage of the 9×10 run (same scheme). -/
def tableV : List Nat :=
  [0, 0, 1, 0, 0, 2, 0, 0, 3, 0, 0, 4, 0, 0, 5, 0, 0, 6, 0, 0, 0, 1, 0, 2, 1,
   0, 4, 1, 0, 0, 2, 0, 2, 2, 0, 0, 4, 2, 0, 0, 5, 2, 0, 0, 6, 2, 0, 0, 0, 3,
   0, 0, 6, 3, 0, 0, 0, 4, 0, 0, 1, 4, 0, 0, 2, 4, 0, 0, 3, 4, 0, 0]

/-- Stream of the 9×9 run (the maze stage consumes exactly 39 draws). -/
def streamW : Nat → Nat := fun i => if i < 39 then lcg i else tableW.getD (i - 39) 0

/-- Stream of the 9×10 run (the maze stage consumes exactly 50 draws). -/
def streamV : Nat → Nat := fun i => if i < 50 then lcg i else tableV.getD (i - 50) 0

/-- Oracle for the concrete 9×9 run. -/
def rngW : Rng := ⟨streamW, 0⟩

/-- Oracle for the concrete 9×10 run. -/
def rngV : Rng := ⟨streamV, 0⟩

/-- Placeholder dungeon for `Option.getD`. -/
def dJunk : Dungeon :=
  { Cells := [], Width := 0, Height := 0, Entrance := ⟨0, 0⟩, Exit := ⟨0, 0⟩,
    Visited := [], Level := 0 }

/-- The dungeon of the complete 9×9 (odd × odd) run. -/
def dW : Dungeon := (NewDungeon 9 9 1 rngW 1).getD dJunk

/-- The dungeon of the complete 9×10 (odd × even) run. -/
def dV : Dungeon := (NewDungeon 9 10 1 rngV 1).getD dJunk

/-- C4 (counterexample): with an even height — still well above the minimal
viable size — the generator carves cells on the bottom border: this complete
9×10 `NewDungeon` run leaves the border cell (1,9) empty, not wall. -/
theorem newDungeon_border_claim_false :
    NewDungeon 9 10 1 rngV 1 = some dV ∧ inBounds 1 9 9 10 = true ∧
      dV.Height = 10 ∧ (dV.getCell ⟨1, 9⟩).typ ≠ .Wall :=
  ⟨rfl, by decide, rfl, by decide⟩

/-- C4 witness: the amended border theorem applied to the complete 9×9 run, at
the corner cell (0,0). -/
theorem newDungeon_border_wall_witness : (dW.getCell ⟨0, 0⟩).typ = .Wall :=
  newDungeon_border_wall 9 9 1 rngW 1 dW (by decide) (by decide) (by decide)
    (by decide) rfl ⟨0, 0⟩ (by decide) (Or.inl rfl)

/-- C5 witness: the exit-policy theorem applied to the complete 9×9 run. -/
theorem newDungeon_exit_policy_witness :
    ∃ d3 rng3 d5 rng5,
      entranceStage 9 9 1 rngW 1 = some (d3, rng3) ∧
      exitStage 9 9 1 rngW 1 = some (d5, rng5) ∧
      dW.Exit = d5.Exit ∧ dW.Entrance = d3.Entrance ∧
      (dW.getCell dW.Exit).typ = .Exit ∧
      (dW.getCell dW.Exit).InteractionLevel = 1 + 1 ∧
      (d3.getCell d5.Exit).typ = .Empty ∧
      (∀ p : Point, p ≠ d5.Exit → (d5.getCell p).typ = (d3.getCell p).typ) ∧
      (d3.findDeadEnds ≠ [] →
        d5.Exit ∈ d3.findDeadEnds ∧
        ∀ q ∈ d3.findDeadEnds, sqDist q d3.Entrance ≤ sqDist d5.Exit d3.Entrance) ∧
      (d3.findDeadEnds = [] →
        sqDist d3.Entrance d5.Exit ≥ Int.tdiv (9 + 9) 3 * Int.tdiv (9 + 9) 3) :=
  newDungeon_exit_policy 9 9 1 rngW 1 dW (by norm_num) (by norm_num) rfl

/-- C1 witness: the connectivity theorem applied to the complete 9×9 run, at
the run's exit cell (7,7). -/
theorem newDungeon_connected_witness : dW.FindPath dW.Entrance ⟨7, 7⟩ ≠ none :=
  newDungeon_connected 9 9 1 rngW 1 dW (by norm_num) (by norm_num) rfl ⟨7, 7⟩
    (by decide) (Or.inr (Or.inr (by decide)))

/-- The default player spawned at (1,1). -/
def playerBase : Player := NewPlayer ⟨1, 1⟩

/-- A player with 101% defense (damage formula exceeds 100% reduction). -/
def playerDef101 : Player := { playerBase with Defense := 101 }

/-- A nearly-dead undefended player. -/
def playerLow : Player := { playerBase with Health := 5, Defense := 0 }

/-- A handler with only a level-10 monster behavior registered. -/
def handlerMonster : InteractionHandler :=
  NewInteractionHandler.Register .Monster (Interactable.monster 10)

/-- An empty registry for handler fixtures. -/
def regNone : CellType → Option Interactable := fun _ => none

/-- A message created at time 0 with the default 1.5 s lifetime stored. -/
def msg0 : TimedMessage :=
  { Text := "m", CreatedAt := 0, TotalLifetime := 3 / 2, RemainingTime := 3 / 2 }

/-- C6 (counterexample): with floored division the claimed damage formula is wrong
at monster level 0 against a player with 101 defense — the code truncates toward
zero, so the health delta is 0, not the −(fdiv) = +1 the floored reading gives. -/
theorem monster_fdiv_claim_false :
    ((Interactable.monster 0).Interact playerDef101).HealthChange ≠
      -(Int.fdiv ((5 + 0 * 2) * (100 - playerDef101.Defense)) 100) := by
  decide

/-- C6 (amended): `MonsterInteraction.Interact` returns health delta
−((5 + L·2)·(100 − defense) tdiv 100) (Go division truncates toward zero; this
agrees with floored division whenever the product is nonnegative), score delta
10 + L·5, and marks the entity removed; for L = 3 and defense = 10 the damage
is 9 and the score is 25. -/
theorem monster_interact_formula (lvl : Int) (p : Player) :
    ((Interactable.monster lvl).Interact p).HealthChange =
      -(Int.tdiv ((5 + lvl * 2) * (100 - p.Defense)) 100) ∧
    ((Interactable.monster lvl).Interact p).ScoreChange = 10 + lvl * 5 ∧
    ((Interactable.monster lvl).Interact p).RemoveEntity = true ∧
    ((Interactable.monster 3).Interact { p with Defense := 10 }).HealthChange = -9 ∧
    ((Interactable.monster 3).Interact { p with Defense := 10 }).ScoreChange = 25 := by
  refine ⟨rfl, rfl, rfl, rfl, rfl⟩

/-- C7: `TreasureInteraction.Interact` returns score delta
(V·(100 + luck)) tdiv 100 (Go integer division), health delta +10 exactly for
potions, and marks the entity removed; for V = 20 and luck = 5 the score is 21. -/
theorem treasure_interact_formula (v : Int) (k : TreasureType) (p : Player) :
    ((Interactable.treasure v k).Interact p).ScoreChange =
      Int.tdiv (v * (100 + p.Luck)) 100 ∧
    ((Interactable.treasure v k).Interact p).HealthChange =
      (if k = .potion then 10 else 0) ∧
    ((Interactable.treasure v k).Interact p).RemoveEntity = true ∧
    ((Interactable.treasure 20 k).Interact playerBase).ScoreChange = 21 ∧
    ((Interactable.treasure 20 .potion).Interact playerBase).HealthChange = 10 ∧
    ((Interactable.treasure 20 .gold).Interact playerBase).HealthChange = 0 := by
  refine ⟨rfl, rfl, rfl, rfl, rfl, rfl⟩

/-- C8: after `Handle` for a registered category the player's health is the
minimum of `MaxHealth` and the pre-call health plus the outcome's health delta;
there is no lower clamp, so (for an actor with nonnegative `MaxHealth`) a
negative post-interaction health is kept as is. -/
theorem handle_health_clamp (h : InteractionHandler) (now : Rat) (ct : CellType)
    (p : Player) (i : Interactable) (hreg : h.Interactions ct = some i) :
    (h.Handle now ct p).2.2.Health =
      min (p.Health + (i.Interact p).HealthChange) p.MaxHealth ∧
    (0 ≤ p.MaxHealth → p.Health + (i.Interact p).HealthChange < 0 →
      (h.Handle now ct p).2.2.Health = p.Health + (i.Interact p).HealthChange) := by
  unfold InteractionHandler.Handle
  rw [hreg]
  simp only
  constructor
  · split <;> (rename_i hc; simp at hc ⊢; try omega)
  · intro hmax hneg
    split <;> (rename_i hc; simp at hc ⊢; try omega)

/-- C8 witness: a level-10 monster hit takes the undefended 5-health player to
−20, below zero, with no lower clamp applied. -/
theorem handle_health_clamp_witness :
    (handlerMonster.Handle 0 .Monster playerLow).2.2.Health = 5 + -25 :=
  (handle_health_clamp handlerMonster 0 .Monster playerLow
      (Interactable.monster 10) (by decide)).2 (by decide) (by decide)

/-- C9: `Handle` on a category with no registered behavior returns the no-op
outcome ("Nothing happens.", zero deltas, no removal) and leaves both the
handler and every field of the player unchanged. -/
theorem handle_unregistered (h : InteractionHandler) (now : Rat) (ct : CellType)
    (p : Player) (hreg : h.Interactions ct = none) :
    (h.Handle now ct p).1.Message = "Nothing happens." ∧
    (h.Handle now ct p).1.HealthChange = 0 ∧
    (h.Handle now ct p).1.ScoreChange = 0 ∧
    (h.Handle now ct p).1.RemoveEntity = false ∧
    (h.Handle now ct p).2.1 = h ∧
    (h.Handle now ct p).2.2 = p := by
  unfold InteractionHandler.Handle
  rw [hreg]
  exact ⟨rfl, rfl, rfl, rfl, rfl, rfl⟩

/-- C9 witness: the empty handler maps a Monster-cell interaction to the no-op
outcome and does not touch the player. -/
theorem handle_unregistered_witness :
    (NewInteractionHandler.Handle 0 .Monster playerBase).1.Message =
      "Nothing happens." ∧
    (NewInteractionHandler.Handle 0 .Monster playerBase).2.2 = playerBase :=
  ⟨(handle_unregistered NewInteractionHandler 0 .Monster playerBase rfl).1,
   (handle_unregistered NewInteractionHandler 0 .Monster playerBase rfl).2.2.2.2.2⟩

/-- C3 (counterexample): a `Handle` call for an unregistered category appends
no message at all, so "every call appends exactly one message" fails: on the
fresh handler the log stays empty instead of growing by one. -/
theorem handle_noop_appends_nothing :
    (NewInteractionHandler.Handle 0 .Monster playerBase).2.1.Messages.length ≠
      NewInteractionHandler.Messages.length + 1 := by
  decide

/-- C3 (amended): `Handle` appends exactly one timed message — stamped with the
handler's current `MessageLife`, which `NewInteractionHandler` sets to 1.5 —
when the category has a registered behavior (the log is capped at 5), and
appends nothing when the category is unregistered. -/
theorem handle_message_log (h : InteractionHandler) (now : Rat) (ct : CellType)
    (p : Player) :
    (∀ i, h.Interactions ct = some i →
      (h.Handle now ct p).2.1.Messages.length = min (h.Messages.length + 1) 5 ∧
      (h.Handle now ct p).2.1.Messages.getLast? =
        some { Text := (i.Interact p).Message, CreatedAt := now,
               TotalLifetime := h.MessageLife, RemainingTime := h.MessageLife }) ∧
    (h.Interactions ct = none → (h.Handle now ct p).2.1.Messages = h.Messages) ∧
    NewInteractionHandler.MessageLife = 3 / 2 := by
  refine ⟨?_, ?_, rfl⟩
  · intro i hreg
    unfold InteractionHandler.Handle
    rw [hreg]
    simp only [InteractionHandler.AddMessage]
    constructor
    · split <;> (rename_i hlen; simp [List.length_append] at hlen ⊢; try omega)
    · split <;> rename_i hlen
      · rw [List.drop_append_of_le_length
          (by simp only [List.length_append, List.length_singleton]; omega)]
        exact List.getLast?_concat _
      · exact List.getLast?_concat _
  · intro hreg
    unfold InteractionHandler.Handle
    rw [hreg]

/-- C3 witness: on the monster-registered handler a Monster interaction grows
the empty log to one message, and on a category with no behavior the log is
returned unchanged. -/
theorem handle_message_log_witness :
    (handlerMonster.Handle 0 .Monster playerLow).2.1.Messages.length =
      min (handlerMonster.Messages.length + 1) 5 ∧
    (handlerMonster.Handle 0 .Wall playerLow).2.1.Messages =
      handlerMonster.Messages :=
  ⟨((handle_message_log handlerMonster 0 .Monster playerLow).1
      (Interactable.monster 10) (by decide)).1,
   (handle_message_log handlerMonster 0 .Wall playerLow).2.1 (by decide)⟩

/-- C10: `UpdateMessages` decides expiry from the handler's current
`MessageLife` minus the time elapsed since the message's creation, ignoring the
message's stored `TotalLifetime`/`RemainingTime`; consequently raising
`MessageLife` from 1.5 to 3 after `msg0` was queued retroactively keeps `msg0`
alive at time 2, where the original lifetime would have expired it. -/
theorem updateMessages_uses_current_life (reg : CellType → Option Interactable)
    (life now : Rat) (m : TimedMessage) :
    (InteractionHandler.UpdateMessages
        { Interactions := reg, Messages := [m], MessageLife := life } now).Messages =
      (if life - (now - m.CreatedAt) > 0
       then [{ m with RemainingTime := life - (now - m.CreatedAt) }] else []) ∧
    (InteractionHandler.UpdateMessages
        { Interactions := regNone, Messages := [msg0], MessageLife := 3 / 2 } 2).Messages
      = [] ∧
    (InteractionHandler.UpdateMessages
        { Interactions := regNone, Messages := [msg0], MessageLife := 3 } 2).Messages
      = [{ msg0 with RemainingTime := 1 }] := by
  have G : ∀ (reg : CellType → Option Interactable) (life now : Rat)
      (m : TimedMessage),
      (InteractionHandler.UpdateMessages
          { Interactions := reg, Messages := [m], MessageLife := life } now).Messages =
        (if life - (now - m.CreatedAt) > 0
         then [{ m with RemainingTime := life - (now - m.CreatedAt) }] else []) := by
    intro reg life now m
    simp only [InteractionHandler.UpdateMessages, List.filterMap]
    split <;> simp_all
  refine ⟨G _ _ _ _, ?_, ?_⟩
  · rw [G]
    simp [msg0]
    norm_num
  · rw [G]
    simp [msg0]
    norm_num

end AIGame
